import Mathlib

/-! WebQuiz: the quiz session controller of `script.js`.

A shallow embedding of the controller (`init`, `handleOptionClick`,
`changeQuestion`, `updateProgress`, `updateNavigation`, `showResults`) with
explicit state passing, and the properties of the session state, the
navigation controls, the score and the next-quiz link proved about it.

JavaScript numbers are IEEE 754 binary64 values. The finite ones are the
dyadic rationals `n / 2 ^ k`; they are kept in lowest terms so that equality of
values is equality of representations. Division and multiplication round the
exact result to the nearest double, ties to even.
-/

namespace WebQuiz

/-! ## JavaScript numbers -/

/-- A JavaScript number: `NaN`, an infinity, or the finite value `n / 2 ^ k`
(in lowest terms: `k = 0` or `n` odd). The sign of a zero is not tracked. -/
inductive JSNumber where
  | nan
  | inf (neg : Bool)
  | fin (n : Int) (k : Nat)
deriving DecidableEq, Repr

/-- An integer as a number; exact for magnitudes below `2 ^ 53`, which covers
array lengths and indices. -/
def JSNumber.ofInt (n : Int) : JSNumber := .fin n 0

/-- Loop of `ilog2`, with a bound on the number of halvings. -/
def log2Aux : Nat → Nat → Nat
  | 0, _ => 0
  | fuel + 1, n => if n < 2 then 0 else log2Aux fuel (n / 2) + 1

/-- Position of the leading bit: `⌊log₂ n⌋` for `n ≥ 1`. -/
def ilog2 (n : Nat) : Nat := log2Aux n n

/-- The exponent `e` with `2 ^ e ≤ a / b < 2 ^ (e + 1)`, for `a, b ≥ 1`. -/
def binade (a b : Nat) : Int :=
  let d : Int := (ilog2 a : Int) - (ilog2 b : Int)
  if b * 2 ^ d.toNat ≤ a * 2 ^ (-d).toNat then d else d - 1

/-- The integer nearest to `a / (b * 2 ^ u)`, a tie going to the even one. -/
def roundMantissa (a b : Nat) (u : Int) : Nat :=
  let A := a * 2 ^ (-u).toNat
  let B := b * 2 ^ u.toNat
  let n := A / B
  let r := A % B
  if 2 * r < B then n else if B < 2 * r then n + 1 else if n % 2 = 0 then n else n + 1

/-- Brings `n / 2 ^ k` to lowest terms. -/
def reduceDyadic : Int → Nat → JSNumber
  | n, 0 => .fin n 0
  | n, k + 1 => if n % 2 = 0 then reduceDyadic (n / 2) k else .fin n (k + 1)

/-- The double nearest to `± a / b` (`b ≥ 1`), ties to even: 53 significant
bits, the unit in the last place never below `2 ^ (-1074)`, and an infinity
from `2 ^ 1024` on. -/
def roundToDouble (neg : Bool) (a b : Nat) : JSNumber :=
  if a = 0 then .fin 0 0 else
    let u := max (binade a b - 52) (-1074)
    let m := roundMantissa a b u
    if (1024 : Int) ≤ (ilog2 m : Int) + u then .inf neg
    else
      let v : Int := ((m * 2 ^ u.toNat : Nat) : Int)
      reduceDyadic (if neg then -v else v) (-u).toNat

/-- The `/` operator on numbers. -/
def JSNumber.div : JSNumber → JSNumber → JSNumber
  | .fin x j, .fin y k =>
      if y = 0 then (if x = 0 then .nan else .inf (decide (x < 0)))
      else
        roundToDouble (decide (x < 0) != decide (y < 0)) (x.natAbs * 2 ^ k)
          (y.natAbs * 2 ^ j)
  | .fin _ _, .inf _ => .fin 0 0
  | .inf s, .fin y _ => .inf (s != decide (y < 0))
  | _, _ => .nan

/-- The `*` operator on numbers. -/
def JSNumber.mul : JSNumber → JSNumber → JSNumber
  | .fin x j, .fin y k =>
      roundToDouble (decide (x < 0) != decide (y < 0)) (x.natAbs * y.natAbs) (2 ^ (j + k))
  | .fin x _, .inf s => if x = 0 then .nan else .inf (s != decide (x < 0))
  | .inf s, .fin y _ => if y = 0 then .nan else .inf (s != decide (y < 0))
  | .inf s, .inf t => .inf (s != t)
  | _, _ => .nan

/-- The `===` operator on numbers: `NaN` equals nothing. -/
def JSNumber.strictEq : JSNumber → JSNumber → Bool
  | .nan, _ => false
  | _, .nan => false
  | x, y => decide (x = y)

/-- The `>=` operator on numbers: false when either side is `NaN`. -/
def JSNumber.ge : JSNumber → JSNumber → Bool
  | .nan, _ => false
  | _, .nan => false
  | .inf s, .inf t => !s || t
  | .inf s, .fin _ _ => !s
  | .fin _ _, .inf t => t
  | .fin x j, .fin y k => decide (y * 2 ^ j ≤ x * 2 ^ k)

/-- The function `Math.round`: the nearest integer, a tie going up; `NaN`
and the infinities are returned as they are. -/
def Math.round : JSNumber → JSNumber
  | .fin n k => .fin ((2 * n + 2 ^ k) / 2 ^ (k + 1)) 0
  | x => x

/-! ## Data model -/

/-- An entry of `quizData`. -/
structure Question where
  question : String
  options : List String
  answerIndex : Int
deriving DecidableEq, Repr

/-- An entry of `userAnswers` that is not `null`. `isCorrect` is `none` while
the property has not been assigned (between lines 101 and 105). -/
structure Answer where
  selected : Nat
  isCorrect : Option Bool
deriving DecidableEq, Repr

/-- The attributes of the page that the controller writes: the `hidden` class
and `disabled` flag of the navigation buttons and the width of the progress
bar, in percent. -/
structure View where
  prevHidden : Bool
  nextHidden : Bool
  finishHidden : Bool
  nextDisabled : Bool
  finishDisabled : Bool
  progress : JSNumber
deriving DecidableEq, Repr

/-- The module state (`currentQuestionIndex`, `userAnswers`) and the page. -/
structure Session where
  currentQuestionIndex : Nat
  userAnswers : List (Option Answer)
  view : View
deriving DecidableEq, Repr

/-- The state a handler leaves behind, and whether it ended by throwing. -/
structure Run where
  state : Session
  threw : Bool
deriving DecidableEq, Repr

/-! ## The controller -/

/-- The function `updateProgress` (lines 162-165). -/
def updateProgress (quizData : List Question) (s : Session) : Session :=
  let progress :=
    JSNumber.mul
      (JSNumber.div (.ofInt s.currentQuestionIndex) (.ofInt ((quizData.length : Int) - 1)))
      (.ofInt 100)
  { s with view := { s.view with progress := progress } }

/-- The function `updateNavigation` (lines 167-178). An index past the end of
`userAnswers` reads `undefined`, which is `!== null`. -/
def updateNavigation (quizData : List Question) (s : Session) : Session :=
  let isAnswered := decide (s.userAnswers[s.currentQuestionIndex]? ≠ some none)
  let isLastQuestion := decide ((s.currentQuestionIndex : Int) = (quizData.length : Int) - 1)
  { s with view :=
      { s.view with
        nextDisabled := !isAnswered
        finishDisabled := !isAnswered
        prevHidden := decide (s.currentQuestionIndex = 0)
        nextHidden := isLastQuestion
        finishHidden := !isLastQuestion } }

/-- The function `init` (lines 19-53), run from the module's initial state
(lines 3-4) and the page as loaded. `quizData` is `none` when
`window.quizData` is missing. With an empty list there is no `card-0`, and
line 28 throws. -/
def init (quizData : Option (List Question)) (page : View) : Run :=
  let s0 : Session := { currentQuestionIndex := 0, userAnswers := [], view := page }
  match quizData with
  | none => { state := s0, threw := false }
  | some qd =>
    let s1 := { s0 with userAnswers := List.replicate qd.length none }
    if qd.length = 0 then { state := s1, threw := true }
    else { state := updateProgress qd (updateNavigation qd s1), threw := false }

/-- The handler `handleOptionClick` (lines 88-115) for a click on option
`optionIndex` of question `questionIndex`. Line 103 throws when `quizData` has
no such question, line 108 when no option carries `answerIndex`; the writes
made before stay. -/
def handleOptionClick (quizData : List Question) (s : Session)
    (questionIndex optionIndex : Nat) : Run :=
  if s.userAnswers[questionIndex]? ≠ some none then { state := s, threw := false }
  else
    let s1 := { s with
      userAnswers :=
        s.userAnswers.set questionIndex (some { selected := optionIndex, isCorrect := none }) }
    match quizData[questionIndex]? with
    | none => { state := s1, threw := true }
    | some q =>
      let correctOptionIndex := q.answerIndex
      let isCorrect := decide ((optionIndex : Int) = correctOptionIndex)
      let s2 := { s1 with
        userAnswers :=
          s1.userAnswers.set questionIndex
            (some { selected := optionIndex, isCorrect := some isCorrect }) }
      if 0 ≤ correctOptionIndex ∧ correctOptionIndex < (q.options.length : Int) then
        { state := updateNavigation quizData s2, threw := false }
      else { state := s2, threw := true }

/-- The function `changeQuestion` (lines 117-150). The cards exist for the
indices below `quizData.length`; lines 134 and 137 throw on a missing one. -/
def changeQuestion (quizData : List Question) (s : Session) (direction : String) : Run :=
  let oldIndex := s.currentQuestionIndex
  let newIndex :=
    if direction = "next" ∧ (oldIndex : Int) < (quizData.length : Int) - 1 then oldIndex + 1
    else if direction = "prev" ∧ oldIndex > 0 then oldIndex - 1
    else oldIndex
  if oldIndex = newIndex then { state := s, threw := false }
  else
    let s1 := { s with currentQuestionIndex := newIndex }
    if oldIndex < quizData.length ∧ newIndex < quizData.length then
      { state := updateNavigation quizData (updateProgress quizData s1), threw := false }
    else { state := s1, threw := true }

/-- The user operations on a running quiz. -/
inductive Op where
  | next
  | prev
  | select (questionIndex optionIndex : Nat)
deriving DecidableEq, Repr

/-- One operation; the session goes on from the state the handler left. -/
def step (quizData : List Question) (s : Session) : Op → Session
  | .next => (changeQuestion quizData s "next").state
  | .prev => (changeQuestion quizData s "prev").state
  | .select questionIndex optionIndex =>
      (handleOptionClick quizData s questionIndex optionIndex).state

/-- A sequence of operations, left to right. -/
def runOps (quizData : List Question) (s : Session) (ops : List Op) : Session :=
  ops.foldl (step quizData) s

/-! ## Results -/

/-- The filter of line 181: `a && a.isCorrect`. -/
def countsAsCorrect : Option Answer → Bool
  | some a => a.isCorrect == some true
  | none => false

/-- Line 181. -/
def score (userAnswers : List (Option Answer)) : Nat :=
  (userAnswers.filter countsAsCorrect).length

/-- Line 190. -/
def percentage (userAnswers : List (Option Answer)) (quizData : List Question) : JSNumber :=
  Math.round
    (JSNumber.mul (JSNumber.div (.ofInt (score userAnswers)) (.ofInt quizData.length))
      (.ofInt 100))

/-- Lines 193-200; `isCSS` is `document.title.includes("CSS")`. -/
def feedback (isCSS : Bool) (percentage : JSNumber) : String :=
  let subject := if isCSS then "CSS" else "HTML"
  let article := if isCSS then "a" else "an"
  if percentage.strictEq (.ofInt 100) then
    "Flawless Victory! You\x27re " ++ article ++ " " ++ subject ++ " expert!"
  else if percentage.ge (.ofInt 80) then
    "Excellent work! You have a strong command of " ++ subject ++ "."
  else if percentage.ge (.ofInt 60) then "Well done! You have a solid foundation."
  else "Good effort! Every master was once a beginner."

/-- Line 217: what follows the last `/` of the path, or the whole path. -/
def filenameOf (path : List Char) : List Char :=
  (path.reverse.takeWhile (· ≠ '/')).reverse

/-- Matches the literal `pat` (lower case) at the head of `s`, ignoring the
case of ASCII letters, and returns what follows it. -/
def matchLit : List Char → List Char → Option (List Char)
  | [], s => some s
  | _ :: _, [] => none
  | p :: ps, c :: cs => if c.toLower = p then matchLit ps cs else none

/-- The expression `/quiz(\d+)\.html/i` anchored at the head of `s`: the
digits captured. `\d+` is greedy and what follows it is not a digit, so only
the longest run of digits can match. -/
def matchAt (s : List Char) : Option (List Char) :=
  match matchLit "quiz".data s with
  | none => none
  | some r =>
    let digits := r.takeWhile Char.isDigit
    if digits = [] then none
    else
      match matchLit ".html".data (r.dropWhile Char.isDigit) with
      | none => none
      | some _ => some digits

/-- Line 218: the first group of the leftmost match in `s`. -/
def quizMatch : List Char → Option (List Char)
  | [] => none
  | c :: cs =>
    match matchAt (c :: cs) with
    | some digits => some digits
    | none => quizMatch cs

/-- The call `parseInt(digits, 10)` on a string of decimal digits, as an exact
integer. -/
def parseInt (digits : List Char) : Nat :=
  digits.foldl (fun acc c => 10 * acc + (c.toNat - '0'.toNat)) 0

/-- Lines 215-234: the address the `Next Quiz` button leads to, if the button
is added. The number is compared with 12 as a double; rounding to a double is
monotone and fixes 12, so the comparison is that of the exact integers, and
below 12 the number and its successor are exact. -/
def nextQuizUrl (pathname : String) : Option String :=
  let filename := filenameOf pathname.data
  match quizMatch filename with
  | none => none
  | some digits =>
    let currentQuizNum := parseInt digits
    let nextQuizNum := currentQuizNum + 1
    if currentQuizNum < 12 then some ("quiz" ++ toString nextQuizNum ++ ".html")
    else none

/-- What `showResults` computes and shows. -/
structure Results where
  score : Nat
  percentage : JSNumber
  feedback : String
  nextQuizUrl : Option String
deriving DecidableEq, Repr

/-- The function `showResults` (lines 180-235): the score, the percentage,
the feedback message and the target of the `Next Quiz` button. -/
def showResults (quizData : List Question) (s : Session) (isCSS : Bool)
    (pathname : String) : Results :=
  let pct := percentage s.userAnswers quizData
  { score := score s.userAnswers
    percentage := pct
    feedback := feedback isCSS pct
    nextQuizUrl := nextQuizUrl pathname }

/-- The nearest integer to `100 * s / n`, a tie going up, in exact
arithmetic. -/
def exactPercentage (s n : Nat) : Nat := (200 * s + n) / (2 * n)

/-- Whether, with `n` questions, the percentage of line 190 is the exact one
for every score up to `s` at which `100 * s / n` is half-way between two
integers. -/
def tiesAgreeUpTo (n : Nat) : Nat → Bool
  | 0 => true
  | s + 1 =>
    (if 200 * (s + 1) % (2 * n) = n then
      Math.round
          (JSNumber.mul (JSNumber.div (.ofInt (s + 1 : Nat)) (.ofInt n)) (.ofInt 100))
        == .ofInt (exactPercentage (s + 1) n)
     else true) && tiesAgreeUpTo n s

/-- Whether `tiesAgreeUpTo n n` holds for every `n` from 1 to the bound. -/
def tiesAgreeForLengths : Nat → Bool
  | 0 => true
  | n + 1 => tiesAgreeUpTo (n + 1) (n + 1) && tiesAgreeForLengths n

/-- The pattern `quiz<digits>.html`, letters in either case, at the head of
`s`, with `digits` the decimal digits between the two literals. -/
def PatternAt (s digits : List Char) : Prop :=
  ∃ q h post, s = q ++ digits ++ h ++ post ∧ q.map Char.toLower = "quiz".data ∧
    digits ≠ [] ∧ (∀ c ∈ digits, c.isDigit = true) ∧ h.map Char.toLower = ".html".data

/-- The pattern occurs in `f`, and `digits` are those of its first
occurrence from the left. -/
def FirstMatch (f digits : List Char) : Prop :=
  ∃ pre s, f = pre ++ s ∧ PatternAt s digits ∧
    ∀ pre2 s2 d2, f = pre2 ++ s2 → pre2.length < pre.length → ¬ PatternAt s2 d2

/-- The three `hidden` classes agree with the current index. -/
def NavVisible (qd : List Question) (s : Session) : Prop :=
  s.view.prevHidden = decide (s.currentQuestionIndex = 0) ∧
  s.view.nextHidden = decide ((s.currentQuestionIndex : Int) = (qd.length : Int) - 1) ∧
  s.view.finishHidden = !decide ((s.currentQuestionIndex : Int) = (qd.length : Int) - 1)

/-! ## Sample data -/

/-- A quiz of two questions. -/
def twoQuestions : List Question :=
  [{ question := "q1", options := ["a", "b"], answerIndex := 0 },
   { question := "q2", options := ["a", "b"], answerIndex := 1 }]

/-- A quiz of `n` copies of one question. -/
def quizOfLength (n : Nat) : List Question :=
  List.replicate n { question := "q", options := ["a", "b"], answerIndex := 0 }

/-- A page with every button visible and enabled. -/
def blankPage : View :=
  { prevHidden := false, nextHidden := false, finishHidden := false,
    nextDisabled := false, finishDisabled := false, progress := .ofInt 0 }

/-- An answer that picked the right option. -/
def rightAnswer : Option Answer := some { selected := 0, isCorrect := some true }

/-- An answer that picked a wrong option. -/
def wrongAnswer : Option Answer := some { selected := 1, isCorrect := some false }

/-- A session on `twoQuestions`, at the first question, which is answered. -/
def firstAnswered : Session :=
  { currentQuestionIndex := 0, userAnswers := [rightAnswer, none], view := blankPage }

/-- A session at index 0 with the given answers. -/
def sessionWith (answers : List (Option Answer)) : Session :=
  { currentQuestionIndex := 0, userAnswers := answers, view := blankPage }

/-! ## Frame lemmas -/

@[simp] theorem updateNavigation_index (qd : List Question) (s : Session) :
    (updateNavigation qd s).currentQuestionIndex = s.currentQuestionIndex := rfl

@[simp] theorem updateNavigation_answers (qd : List Question) (s : Session) :
    (updateNavigation qd s).userAnswers = s.userAnswers := rfl

@[simp] theorem updateProgress_index (qd : List Question) (s : Session) :
    (updateProgress qd s).currentQuestionIndex = s.currentQuestionIndex := rfl

@[simp] theorem updateProgress_answers (qd : List Question) (s : Session) :
    (updateProgress qd s).userAnswers = s.userAnswers := rfl

theorem handleOptionClick_index (qd : List Question) (s : Session) (qi oi : Nat) :
    (handleOptionClick qd s qi oi).state.currentQuestionIndex = s.currentQuestionIndex := by
  unfold handleOptionClick
  split
  · rfl
  · split
    · rfl
    · dsimp only
      split <;> rfl

theorem handleOptionClick_length (qd : List Question) (s : Session) (qi oi : Nat) :
    (handleOptionClick qd s qi oi).state.userAnswers.length = s.userAnswers.length := by
  unfold handleOptionClick
  split
  · rfl
  · split
    · simp
    · dsimp only
      split <;> simp

theorem changeQuestion_answers (qd : List Question) (s : Session) (d : String) :
    (changeQuestion qd s d).state.userAnswers = s.userAnswers := by
  unfold changeQuestion
  dsimp only
  split_ifs <;> rfl

theorem changeQuestion_index_lt (qd : List Question) (s : Session) (d : String)
    (h : s.currentQuestionIndex < qd.length) :
    (changeQuestion qd s d).state.currentQuestionIndex < qd.length := by
  unfold changeQuestion
  dsimp only
  split_ifs <;> simp only [updateNavigation_index, updateProgress_index] <;> omega

theorem step_index_lt (qd : List Question) (s : Session) (op : Op)
    (h : s.currentQuestionIndex < qd.length) :
    (step qd s op).currentQuestionIndex < qd.length := by
  cases op with
  | next => exact changeQuestion_index_lt qd s _ h
  | prev => exact changeQuestion_index_lt qd s _ h
  | select qi oi => simpa [step, handleOptionClick_index] using h

theorem step_length (qd : List Question) (s : Session) (op : Op) :
    (step qd s op).userAnswers.length = s.userAnswers.length := by
  cases op with
  | next => simp [step, changeQuestion_answers]
  | prev => simp [step, changeQuestion_answers]
  | select qi oi => exact handleOptionClick_length qd s qi oi

theorem runOps_invariant (qd : List Question) (ops : List Op) (s : Session)
    (h : s.currentQuestionIndex < qd.length) :
    (runOps qd s ops).currentQuestionIndex < qd.length ∧
      (runOps qd s ops).userAnswers.length = s.userAnswers.length := by
  induction ops generalizing s with
  | nil => exact ⟨h, rfl⟩
  | cons op ops ih =>
    have := ih (step qd s op) (step_index_lt qd s op h)
    simp only [runOps, List.foldl_cons] at this ⊢
    exact ⟨this.1, this.2.trans (step_length qd s op)⟩

theorem init_state (qd : List Question) (page : View) (hN : 1 ≤ qd.length) :
    (init (some qd) page).threw = false ∧
      (init (some qd) page).state.currentQuestionIndex = 0 ∧
      (init (some qd) page).state.userAnswers = List.replicate qd.length none := by
  unfold init
  have : qd.length ≠ 0 := by omega
  simp [this]

/-! ## C1: the session-state invariant -/

/-- C1. For a question list of length `N ≥ 1`, the state after `init` has
`currentQuestionIndex = 0` and `N` unset answers, and after any sequence of
`changeQuestion('next')`, `changeQuestion('prev')` and option clicks the state
has `0 ≤ currentQuestionIndex ≤ N - 1` and `userAnswers.length = N`. -/
theorem session_invariant (quizData : List Question) (page : View) (ops : List Op)
    (hN : 1 ≤ quizData.length) :
    ((init (some quizData) page).state.currentQuestionIndex = 0 ∧
      (init (some quizData) page).state.userAnswers = List.replicate quizData.length none) ∧
    (0 : Int) ≤ (runOps quizData (init (some quizData) page).state ops).currentQuestionIndex ∧
    ((runOps quizData (init (some quizData) page).state ops).currentQuestionIndex : Int)
      ≤ (quizData.length : Int) - 1 ∧
    (runOps quizData (init (some quizData) page).state ops).userAnswers.length
      = quizData.length := by
  obtain ⟨-, h0, ha⟩ := init_state quizData page hN
  have hlt : (init (some quizData) page).state.currentQuestionIndex < quizData.length := by
    omega
  obtain ⟨h1, h2⟩ := runOps_invariant quizData ops _ hlt
  refine ⟨⟨h0, ha⟩, by omega, by omega, ?_⟩
  rw [h2, ha, List.length_replicate]

/-- C1 on the two-question quiz, after a run of clicks and moves. -/
theorem session_invariant_witness :
    1 ≤ twoQuestions.length ∧
    ((runOps twoQuestions (init (some twoQuestions) blankPage).state
        [.select 0 0, .next, .next, .select 1 0, .prev, .prev, .select 5 0]).currentQuestionIndex
        : Int) ≤ (twoQuestions.length : Int) - 1 ∧
    (runOps twoQuestions (init (some twoQuestions) blankPage).state
        [.select 0 0, .next, .next, .select 1 0, .prev, .prev, .select 5 0]).userAnswers.length
      = twoQuestions.length :=
  ⟨by decide,
    (session_invariant twoQuestions blankPage
      [.select 0 0, .next, .next, .select 1 0, .prev, .prev, .select 5 0] (by decide)).2.2⟩

/-! ## C2: the first answer is final -/

theorem handleOptionClick_answered (qd : List Question) (s : Session) (qi oi : Nat)
    (h : s.userAnswers[qi]? ≠ some none) :
    handleOptionClick qd s qi oi = { state := s, threw := false } := by
  unfold handleOptionClick
  rw [if_pos h]

theorem handleOptionClick_first (qd : List Question) (s : Session) (qi oi : Nat)
    (hi : qi < qd.length) (hunset : s.userAnswers[qi]? = some none) :
    (handleOptionClick qd s qi oi).state.userAnswers =
      s.userAnswers.set qi
        (some { selected := oi, isCorrect := some (decide ((oi : Int) = qd[qi].answerIndex)) }) := by
  unfold handleOptionClick
  have hq : qd[qi]? = some qd[qi] := List.getElem?_eq_getElem hi
  rw [if_neg (by simp [hunset]), hq]
  dsimp only
  split_ifs <;> simp

theorem runOps_select_answered (qd : List Question) (s : Session) (qi : Nat)
    (later : List Nat) (h : s.userAnswers[qi]? ≠ some none) :
    runOps qd s (later.map (Op.select qi)) = s := by
  induction later with
  | nil => rfl
  | cons o os ih =>
    simp only [List.map_cons, runOps, List.foldl_cons, step]
    rw [handleOptionClick_answered qd s qi o h]
    exact ih

/-- C2. On a question `i` below `N` whose answer is unset, the first
selection `o1` writes the record with `selected = o1` and
`isCorrect = (o1 == answerIndex)`, touching neither the other answers nor
`currentQuestionIndex`; every later selection on `i` leaves the whole state as
it is, so after `o1, o2, ..., ok` the record is still that of `o1`. -/
theorem first_answer_final (quizData : List Question) (s : Session) (i o1 : Nat)
    (later : List Nat) (hi : i < quizData.length) (hunset : s.userAnswers[i]? = some none) :
    (handleOptionClick quizData s i o1).state.userAnswers[i]? =
        some (some { selected := o1
                     isCorrect := some (decide ((o1 : Int) = quizData[i].answerIndex)) }) ∧
    (∀ j, j ≠ i →
      (handleOptionClick quizData s i o1).state.userAnswers[j]? = s.userAnswers[j]?) ∧
    (handleOptionClick quizData s i o1).state.currentQuestionIndex = s.currentQuestionIndex ∧
    (∀ o, handleOptionClick quizData (handleOptionClick quizData s i o1).state i o =
      { state := (handleOptionClick quizData s i o1).state, threw := false }) ∧
    runOps quizData s (Op.select i o1 :: later.map (Op.select i)) =
      (handleOptionClick quizData s i o1).state ∧
    (runOps quizData s (Op.select i o1 :: later.map (Op.select i))).userAnswers[i]? =
        some (some { selected := o1
                     isCorrect := some (decide ((o1 : Int) = quizData[i].answerIndex)) }) := by
  have hlt : i < s.userAnswers.length := by
    by_contra hge
    rw [List.getElem?_eq_none (by omega)] at hunset
    exact absurd hunset (by simp)
  have hfirst := handleOptionClick_first quizData s i o1 hi hunset
  have hrec : (handleOptionClick quizData s i o1).state.userAnswers[i]? =
      some (some { selected := o1
                   isCorrect := some (decide ((o1 : Int) = quizData[i].answerIndex)) }) := by
    rw [hfirst, List.getElem?_set_self hlt]
  have hne : (handleOptionClick quizData s i o1).state.userAnswers[i]? ≠ some none := by
    rw [hrec]; simp
  have hrun : runOps quizData s (Op.select i o1 :: later.map (Op.select i)) =
      (handleOptionClick quizData s i o1).state := by
    simp only [runOps, List.foldl_cons, step]
    exact runOps_select_answered quizData _ i later hne
  refine ⟨hrec, ?_, handleOptionClick_index quizData s i o1, ?_, hrun, ?_⟩
  · intro j hj
    rw [hfirst, List.getElem?_set_ne (Ne.symm hj)]
  · intro o
    exact handleOptionClick_answered quizData _ i o hne
  · rw [hrun]; exact hrec

/-- C2 on the two-question quiz: a wrong first pick stays, whatever is
clicked afterwards. -/
theorem first_answer_final_witness :
    (0 < twoQuestions.length ∧ (sessionWith [none, none]).userAnswers[0]? = some none) ∧
    (runOps twoQuestions (sessionWith [none, none])
        (Op.select 0 1 :: [0, 1].map (Op.select 0))).userAnswers[0]?
      = some (some { selected := 1, isCorrect := some false }) :=
  ⟨⟨by decide, by decide⟩,
    (first_answer_final twoQuestions (sessionWith [none, none]) 0 1 [0, 1]
      (by decide) (by decide)).2.2.2.2.2⟩

/-! ## C5, C6: enablement of the finish and next controls -/

theorem answered_iff (s : Session) (i : Nat) (hi : i < s.userAnswers.length) :
    s.userAnswers[i]? ≠ some none ↔ ∃ a, s.userAnswers[i]? = some (some a) := by
  rw [List.getElem?_eq_getElem hi]
  cases s.userAnswers[i] <;> simp

theorem updateNavigation_disabled (qd : List Question) (s : Session)
    (hi : s.currentQuestionIndex < s.userAnswers.length) :
    ((updateNavigation qd s).view.nextDisabled = false ↔
        ∃ a, s.userAnswers[s.currentQuestionIndex]? = some (some a)) ∧
      ((updateNavigation qd s).view.finishDisabled = false ↔
        ∃ a, s.userAnswers[s.currentQuestionIndex]? = some (some a)) := by
  rw [← answered_iff s _ hi]
  simp [updateNavigation]

/-- C5, as the code has it. With `N ≥ 1` and `currentQuestionIndex` in
`[0, N-1]`, after `updateNavigation` the finish button is enabled iff the
current question is answered, whatever the index; it is enabled and visible
iff the current question is answered and the index is the last one. -/
theorem finish_enabled_iff (quizData : List Question) (s : Session)
    (hN : 1 ≤ quizData.length) (hidx : s.currentQuestionIndex < quizData.length)
    (hlen : s.userAnswers.length = quizData.length) :
    ((updateNavigation quizData s).view.finishDisabled = false ↔
      ∃ a, s.userAnswers[s.currentQuestionIndex]? = some (some a)) ∧
    (((updateNavigation quizData s).view.finishDisabled = false ∧
        (updateNavigation quizData s).view.finishHidden = false) ↔
      ((∃ a, s.userAnswers[s.currentQuestionIndex]? = some (some a)) ∧
        s.currentQuestionIndex = quizData.length - 1)) := by
  have h := (updateNavigation_disabled quizData s (by omega)).2
  refine ⟨h, ?_⟩
  rw [h]
  have : (updateNavigation quizData s).view.finishHidden = false ↔
      s.currentQuestionIndex = quizData.length - 1 := by
    simp only [updateNavigation, Bool.not_eq_false', decide_eq_true_eq]
    omega
  rw [this]

/-- C5 on the two-question quiz, at the first question, answered: the
finish button is enabled. -/
theorem finish_enabled_iff_witness :
    (1 ≤ twoQuestions.length ∧ firstAnswered.currentQuestionIndex < twoQuestions.length ∧
      firstAnswered.userAnswers.length = twoQuestions.length) ∧
    (updateNavigation twoQuestions firstAnswered).view.finishDisabled = false :=
  ⟨⟨by decide, by decide, by decide⟩,
    (finish_enabled_iff twoQuestions firstAnswered (by decide) (by decide) (by decide)).1.mpr
      ⟨_, rfl⟩⟩

/-- C5, as stated, fails: on the first of two questions, once answered,
`updateNavigation` enables the finish button although the index is not the
last one. -/
theorem finish_enabled_counterexample :
    (updateNavigation twoQuestions firstAnswered).view.finishDisabled = false ∧
    firstAnswered.currentQuestionIndex ≠ twoQuestions.length - 1 ∧
    ¬ ((updateNavigation twoQuestions firstAnswered).view.finishDisabled = false ↔
        ((∃ a, firstAnswered.userAnswers[firstAnswered.currentQuestionIndex]?
            = some (some a)) ∧
          firstAnswered.currentQuestionIndex = twoQuestions.length - 1)) := by
  refine ⟨by decide, by decide, fun h => ?_⟩
  exact absurd (h.mp (by decide)).2 (by decide)

/-- C6. With `N ≥ 1` and `currentQuestionIndex` in `[0, N-1]`, after
`updateNavigation` the next button is enabled iff `userAnswers` holds an answer
at the current index. The first selection on the current question, whose
`answerIndex` is an index into its options, runs to the refresh and leaves the
next button enabled; a `changeQuestion` that moves to a question still unset
leaves it disabled. -/
theorem next_enabled_iff (quizData : List Question) (s : Session)
    (hidx : s.currentQuestionIndex < quizData.length)
    (hlen : s.userAnswers.length = quizData.length) :
    ((updateNavigation quizData s).view.nextDisabled = false ↔
      ∃ a, s.userAnswers[s.currentQuestionIndex]? = some (some a)) ∧
    (∀ o : Nat, s.userAnswers[s.currentQuestionIndex]? = some none →
      0 ≤ quizData[s.currentQuestionIndex].answerIndex →
      quizData[s.currentQuestionIndex].answerIndex
        < (quizData[s.currentQuestionIndex].options.length : Int) →
      (handleOptionClick quizData s s.currentQuestionIndex o).threw = false ∧
      (handleOptionClick quizData s s.currentQuestionIndex o).state.view.nextDisabled
        = false) ∧
    (∀ direction : String,
      (changeQuestion quizData s direction).state.currentQuestionIndex
        ≠ s.currentQuestionIndex →
      s.userAnswers[(changeQuestion quizData s direction).state.currentQuestionIndex]?
        = some none →
      (changeQuestion quizData s direction).state.view.nextDisabled = true) := by
  refine ⟨(updateNavigation_disabled quizData s (by omega)).1, ?_, ?_⟩
  · intro o hunset h0 h1
    have hq : quizData[s.currentQuestionIndex]? = some quizData[s.currentQuestionIndex] :=
      List.getElem?_eq_getElem hidx
    unfold handleOptionClick
    rw [if_neg (by simp [hunset]), hq]
    dsimp only
    rw [if_pos ⟨h0, h1⟩]
    refine ⟨rfl, ?_⟩
    have hl : s.currentQuestionIndex < s.userAnswers.length := by omega
    simp [updateNavigation, hl]
  · intro direction
    unfold changeQuestion
    dsimp only
    split_ifs <;>
      simp only [updateNavigation, updateProgress, ne_eq, not_true_eq_false,
        IsEmpty.forall_iff] <;>
      first
        | omega
        | (intro _ hunset; simp [hunset])

/-- C6 on the two-question quiz: the first click on the current question
enables the next button. -/
theorem next_enabled_iff_witness :
    ((sessionWith [none, none]).currentQuestionIndex < twoQuestions.length ∧
      (sessionWith [none, none]).userAnswers.length = twoQuestions.length) ∧
    (handleOptionClick twoQuestions (sessionWith [none, none]) 0 1).state.view.nextDisabled
      = false :=
  ⟨⟨by decide, by decide⟩,
    ((next_enabled_iff twoQuestions (sessionWith [none, none]) (by decide) (by decide)).2.1
      1 (by decide) (by decide) (by decide)).2⟩

/-! ## C8: progress of a single-question quiz -/

/-- C8, what the code does. With a single question `updateProgress` divides
`0` by `0`: the progress written is `NaN`, by `updateProgress` itself and so by
`init`; there is no fallback value. -/
theorem updateProgress_single_question (q : Question) (s : Session) (page : View) :
    (updateProgress [q] { s with currentQuestionIndex := 0 }).view.progress = JSNumber.nan ∧
    (init (some [q]) page).state.view.progress = JSNumber.nan := by
  constructor <;> rfl

/-! ## C7: visibility of the navigation controls -/

theorem updateNavigation_navVisible (qd : List Question) (s : Session) :
    NavVisible qd (updateNavigation qd s) :=
  ⟨rfl, rfl, rfl⟩

theorem handleOptionClick_navVisible (qd : List Question) (s : Session) (qi oi : Nat)
    (h : NavVisible qd s) : NavVisible qd (handleOptionClick qd s qi oi).state := by
  unfold handleOptionClick
  split_ifs
  · exact h
  · split
    · exact h
    · dsimp only
      split_ifs
      · exact updateNavigation_navVisible qd _
      · exact h

theorem changeQuestion_navVisible (qd : List Question) (s : Session) (d : String)
    (hidx : s.currentQuestionIndex < qd.length) (h : NavVisible qd s) :
    NavVisible qd (changeQuestion qd s d).state := by
  unfold changeQuestion
  dsimp only
  split_ifs
  all_goals first
    | exact h
    | exact updateNavigation_navVisible qd _
    | (exfalso; omega)

theorem runOps_navVisible (qd : List Question) (ops : List Op) (s : Session)
    (hidx : s.currentQuestionIndex < qd.length) (h : NavVisible qd s) :
    NavVisible qd (runOps qd s ops) := by
  induction ops generalizing s with
  | nil => exact h
  | cons op ops ih =>
    simp only [runOps, List.foldl_cons]
    refine ih (step qd s op) (step_index_lt qd s op hidx) ?_
    cases op with
    | next => exact changeQuestion_navVisible qd s _ hidx h
    | prev => exact changeQuestion_navVisible qd s _ hidx h
    | select qi oi => exact handleOptionClick_navVisible qd s qi oi h

theorem init_navVisible (qd : List Question) (page : View) (hN : 1 ≤ qd.length) :
    NavVisible qd (init (some qd) page).state := by
  unfold init
  have : qd.length ≠ 0 := by omega
  simp only [this, if_false]
  exact ⟨rfl, rfl, rfl⟩

/-- C7. For `N ≥ 1`, in every state reached from `init` by navigation and
option clicks: the prev button is hidden iff `currentQuestionIndex = 0`, the
next button is hidden iff `currentQuestionIndex = N - 1`, the finish button is
hidden iff `currentQuestionIndex ≠ N - 1`, and exactly one of next and finish
is visible. -/
theorem nav_visibility_invariant (quizData : List Question) (page : View) (ops : List Op)
    (hN : 1 ≤ quizData.length) :
    ((runOps quizData (init (some quizData) page).state ops).view.prevHidden = true ↔
      (runOps quizData (init (some quizData) page).state ops).currentQuestionIndex = 0) ∧
    ((runOps quizData (init (some quizData) page).state ops).view.nextHidden = true ↔
      (runOps quizData (init (some quizData) page).state ops).currentQuestionIndex
        = quizData.length - 1) ∧
    ((runOps quizData (init (some quizData) page).state ops).view.finishHidden = true ↔
      (runOps quizData (init (some quizData) page).state ops).currentQuestionIndex
        ≠ quizData.length - 1) ∧
    ((runOps quizData (init (some quizData) page).state ops).view.nextHidden = false ↔
      (runOps quizData (init (some quizData) page).state ops).view.finishHidden = true) := by
  obtain ⟨-, h0, -⟩ := init_state quizData page hN
  have hlt : (init (some quizData) page).state.currentQuestionIndex < quizData.length := by
    omega
  obtain ⟨hp, hn, hf⟩ :=
    runOps_navVisible quizData ops _ hlt (init_navVisible quizData page hN)
  rw [hp, hn, hf]
  simp only [decide_eq_true_eq, Bool.not_eq_true', decide_eq_false_iff_not]
  refine ⟨trivial, by omega, by omega, trivial⟩

/-- C7 on the two-question quiz, after answering and moving to the last
question: next is hidden and finish is shown. -/
theorem nav_visibility_invariant_witness :
    1 ≤ twoQuestions.length ∧
    ((runOps twoQuestions (init (some twoQuestions) blankPage).state
        [.select 0 0, .next]).view.nextHidden = true ↔
      (runOps twoQuestions (init (some twoQuestions) blankPage).state
        [.select 0 0, .next]).currentQuestionIndex = twoQuestions.length - 1) :=
  ⟨by decide,
    (nav_visibility_invariant twoQuestions blankPage [.select 0 0, .next] (by decide)).2.1⟩

/-! ## C4: the feedback tiers -/

theorem strictEq_ofInt (p c : Int) :
    (JSNumber.ofInt p).strictEq (.ofInt c) = decide (p = c) := by
  simp [JSNumber.strictEq, JSNumber.ofInt]

theorem ge_ofInt (p c : Int) : (JSNumber.ofInt p).ge (.ofInt c) = decide (c ≤ p) := by
  simp [JSNumber.ge, JSNumber.ofInt]

theorem feedback_ofInt (isCSS : Bool) (p : Int) :
    feedback isCSS (.ofInt p) =
      if p = 100 then
        (if isCSS then "Flawless Victory! You\x27re a CSS expert!"
          else "Flawless Victory! You\x27re an HTML expert!")
      else if 80 ≤ p then
        (if isCSS then "Excellent work! You have a strong command of CSS."
          else "Excellent work! You have a strong command of HTML.")
      else if 60 ≤ p then "Well done! You have a solid foundation."
      else "Good effort! Every master was once a beginner." := by
  unfold feedback
  rw [strictEq_ofInt, ge_ofInt, ge_ofInt]
  cases isCSS <;> simp only [decide_eq_true_eq] <;> split_ifs <;> rfl

theorem feedback_flawless_iff (isCSS : Bool) (p : Int) :
    feedback isCSS (.ofInt p) =
        (if isCSS then "Flawless Victory! You\x27re a CSS expert!"
          else "Flawless Victory! You\x27re an HTML expert!") ↔ p = 100 := by
  rw [feedback_ofInt]
  cases isCSS <;> split_ifs <;> simp <;> omega

/-- C4. For an integer percentage `p`, `showResults` picks the
`Flawless Victory` message iff `p = 100`, the `Excellent work` message iff
`80 ≤ p` and `p ≠ 100`, the `solid foundation` message iff `60 ≤ p < 80`, and
the `Good effort` message iff `p < 60`. The four messages differ and one of
them is picked; 80 is in the strong tier, 60 and 75 in the solid one. The message shown is that of the percentage computed. -/
theorem feedback_tiers (isCSS : Bool) (p : Int) :
    (feedback isCSS (.ofInt p) =
        (if isCSS then "Flawless Victory! You\x27re a CSS expert!"
          else "Flawless Victory! You\x27re an HTML expert!") ↔ p = 100) ∧
    (feedback isCSS (.ofInt p) =
        (if isCSS then "Excellent work! You have a strong command of CSS."
          else "Excellent work! You have a strong command of HTML.") ↔ 80 ≤ p ∧ p ≠ 100) ∧
    (feedback isCSS (.ofInt p) = "Well done! You have a solid foundation." ↔
      60 ≤ p ∧ p < 80) ∧
    (feedback isCSS (.ofInt p) = "Good effort! Every master was once a beginner." ↔
      p < 60) ∧
    (p = 100 ∨ (80 ≤ p ∧ p ≠ 100) ∨ (60 ≤ p ∧ p < 80) ∨ p < 60) ∧
    ¬ (p = 100 ∧ p < 60) ∧ ¬ (p = 100 ∧ 60 ≤ p ∧ p < 80) ∧
    ¬ ((80 ≤ p ∧ p ≠ 100) ∧ 60 ≤ p ∧ p < 80) ∧ ¬ ((80 ≤ p ∧ p ≠ 100) ∧ p < 60) ∧
    ¬ ((60 ≤ p ∧ p < 80) ∧ p < 60) ∧
    feedback isCSS (.ofInt 80) =
      (if isCSS then "Excellent work! You have a strong command of CSS."
        else "Excellent work! You have a strong command of HTML.") ∧
    feedback isCSS (.ofInt 60) = "Well done! You have a solid foundation." ∧
    feedback isCSS (.ofInt 75) = "Well done! You have a solid foundation." ∧
    (∀ (quizData : List Question) (s : Session) (pathname : String),
      (showResults quizData s isCSS pathname).feedback =
        feedback isCSS (showResults quizData s isCSS pathname).percentage) := by
  refine ⟨?_, ?_, ?_, ?_, by omega, by omega, by omega, by omega, by omega, by omega,
    ?_, ?_, ?_, fun _ _ _ => rfl⟩
  · rw [feedback_ofInt]
    cases isCSS <;> split_ifs <;> simp <;> omega
  · rw [feedback_ofInt]
    cases isCSS <;> split_ifs <;> simp <;> omega
  · rw [feedback_ofInt]
    cases isCSS <;> split_ifs <;> simp <;> omega
  · rw [feedback_ofInt]
    cases isCSS <;> split_ifs <;> simp <;> omega
  · cases isCSS <;> decide
  · cases isCSS <;> decide
  · cases isCSS <;> decide

/-! ## C9: the next-quiz link -/

theorem matchLit_iff (pat s r : List Char) :
    matchLit pat s = some r ↔ ∃ q, s = q ++ r ∧ q.map Char.toLower = pat := by
  induction pat generalizing s with
  | nil =>
    constructor
    · intro h
      simp only [matchLit, Option.some.injEq] at h
      exact ⟨[], by simp [h], rfl⟩
    · rintro ⟨q, hs, hq⟩
      have : q = [] := by simpa using hq
      subst this
      simp [matchLit, hs]
  | cons p ps ih =>
    cases s with
    | nil =>
      constructor
      · intro h
        simp [matchLit] at h
      · rintro ⟨q, hs, hq⟩
        have hq0 : q = [] := by
          cases q with
          | nil => rfl
          | cons a q => simp at hs
        subst hq0
        simp at hq
    | cons c cs =>
      simp only [matchLit]
      constructor
      · intro h
        split_ifs at h with hc
        obtain ⟨q, hs, hq⟩ := (ih cs).mp h
        exact ⟨c :: q, by simp [hs], by simp [hc, hq]⟩
      · rintro ⟨q, hs, hq⟩
        cases q with
        | nil => simp at hq
        | cons a q =>
          simp only [List.map_cons, List.cons.injEq] at hq
          simp only [List.cons_append, List.cons.injEq] at hs
          obtain ⟨rfl, hcs⟩ := hs
          rw [if_pos hq.1]
          exact (ih cs).mpr ⟨q, hcs, hq.2⟩

theorem isDigit_toNat (c : Char) (h : c.isDigit = true) : 48 ≤ c.toNat ∧ c.toNat ≤ 57 := by
  simp only [Char.isDigit, Bool.and_eq_true, decide_eq_true_eq, ge_iff_le] at h
  obtain ⟨h1, h2⟩ := h
  rw [UInt32.le_def] at h1 h2
  simp only [Char.toNat]
  exact ⟨h1, h2⟩

theorem isDigit_toLower_ne (c : Char) (h : c.isDigit = true) : c.toLower ≠ '.' := by
  have := isDigit_toNat c h
  unfold Char.toLower
  simp only
  rw [if_neg (by omega)]
  intro hc
  subst hc
  exact absurd h (by decide)

theorem matchAt_iff (s digits : List Char) :
    matchAt s = some digits ↔ PatternAt s digits := by
  constructor
  · intro h
    unfold matchAt at h
    split at h
    · simp at h
    · rename_i r hr
      dsimp only at h
      split_ifs at h with hd
      split at h
      · simp at h
      · rename_i post hpost
        simp only [Option.some.injEq] at h
        obtain ⟨q, hs, hq⟩ := (matchLit_iff _ _ _).mp hr
        obtain ⟨t, ht, htl⟩ := (matchLit_iff _ _ _).mp hpost
        refine ⟨q, t, post, ?_, hq, h ▸ hd, ?_, htl⟩
        · rw [hs, ← h, List.append_assoc, List.append_assoc, ← ht,
            List.takeWhile_append_dropWhile]
        · intro c hc
          rw [← h] at hc
          exact (List.mem_takeWhile_imp hc)
  · rintro ⟨q, t, post, hs, hq, hne, hdig, ht⟩
    have hr : matchLit "quiz".data s = some (digits ++ (t ++ post)) :=
      (matchLit_iff _ _ _).mpr ⟨q, by simp [hs], hq⟩
    obtain ⟨c, t2, rfl⟩ : ∃ c t2, t = c :: t2 := by
      cases t with
      | nil => simp at ht
      | cons c t2 => exact ⟨c, t2, rfl⟩
    have hc : c.toLower = '.' := by
      have := congrArg List.head? ht
      simpa using this
    have hnd : ¬ c.isDigit = true := fun hd => isDigit_toLower_ne c hd hc
    have htake : List.takeWhile Char.isDigit (digits ++ (c :: t2 ++ post)) = digits := by
      rw [List.takeWhile_append_of_pos hdig]
      simp [hnd]
    have hdrop : List.dropWhile Char.isDigit (digits ++ (c :: t2 ++ post))
        = c :: t2 ++ post := by
      rw [List.dropWhile_append_of_pos hdig]
      simp [hnd]
    have hpost : matchLit ".html".data (c :: t2 ++ post) = some post :=
      (matchLit_iff _ _ _).mpr ⟨c :: t2, rfl, ht⟩
    unfold matchAt
    rw [hr]
    dsimp only
    rw [htake, if_neg hne, hdrop, hpost]

theorem matchAt_nil : matchAt [] = none := rfl

theorem quizMatch_none_iff (f : List Char) :
    quizMatch f = none ↔ ∀ pre s, f = pre ++ s → matchAt s = none := by
  induction f with
  | nil =>
    constructor
    · intro _ pre s h
      have : s = [] := by
        have := congrArg List.length h
        simp only [List.length_nil, List.length_append] at this
        exact List.length_eq_zero.mp (by omega)
      rw [this]; rfl
    · intro _; rfl
  | cons c cs ih =>
    simp only [quizMatch]
    constructor
    · intro h pre s hps
      split at h
      · simp at h
      · rename_i hm
        cases pre with
        | nil => simp at hps; rw [← hps]; exact hm
        | cons a pre =>
          simp only [List.cons_append, List.cons.injEq] at hps
          exact ih.mp h pre s hps.2
    · intro h
      have hm : matchAt (c :: cs) = none := h [] _ rfl
      rw [hm]
      exact ih.mpr (fun pre s hps => h (c :: pre) s (by simp [hps]))

theorem quizMatch_some_iff (f digits : List Char) :
    quizMatch f = some digits ↔
      ∃ pre s, f = pre ++ s ∧ matchAt s = some digits ∧
        ∀ pre2 s2, f = pre2 ++ s2 → pre2.length < pre.length → matchAt s2 = none := by
  induction f with
  | nil =>
    constructor
    · intro h
      simp [quizMatch] at h
    · rintro ⟨pre, s, hps, hm, -⟩
      have : s = [] := by
        have := congrArg List.length hps
        simp only [List.length_nil, List.length_append] at this
        exact List.length_eq_zero.mp (by omega)
      rw [this, matchAt_nil] at hm
      simp at hm
  | cons c cs ih =>
    simp only [quizMatch]
    constructor
    · intro h
      split at h
      · rename_i d hm
        simp only [Option.some.injEq] at h
        subst h
        exact ⟨[], c :: cs, rfl, hm, fun _ _ _ hl => absurd hl (by simp)⟩
      · rename_i hm
        obtain ⟨pre, s, hps, hs, hleft⟩ := ih.mp h
        refine ⟨c :: pre, s, by simp [hps], hs, ?_⟩
        intro pre2 s2 h2 hl
        cases pre2 with
        | nil => simp at h2; rw [← h2]; exact hm
        | cons a pre2 =>
          simp only [List.cons_append, List.cons.injEq] at h2
          exact hleft pre2 s2 h2.2 (by simpa using hl)
    · rintro ⟨pre, s, hps, hs, hleft⟩
      cases pre with
      | nil =>
        simp only [List.nil_append] at hps
        rw [hps, hs]
      | cons a pre =>
        simp only [List.cons_append, List.cons.injEq] at hps
        have hm : matchAt (c :: cs) = none := hleft [] (c :: cs) rfl (by simp)
        rw [hm]
        refine ih.mpr ⟨pre, s, hps.2, hs, ?_⟩
        intro pre2 s2 h2 hl
        exact hleft (c :: pre2) s2 (by simp [h2]) (by simpa using hl)

theorem matchAt_none_iff (s : List Char) : matchAt s = none ↔ ∀ d, ¬ PatternAt s d := by
  constructor
  · intro h d hd
    rw [(matchAt_iff s d).mpr hd] at h
    simp at h
  · intro h
    cases hm : matchAt s with
    | none => rfl
    | some d => exact absurd ((matchAt_iff s d).mp hm) (h d)

theorem quizMatch_iff_firstMatch (f digits : List Char) :
    quizMatch f = some digits ↔ FirstMatch f digits := by
  rw [quizMatch_some_iff]
  constructor
  · rintro ⟨pre, s, hps, hs, hleft⟩
    exact ⟨pre, s, hps, (matchAt_iff s digits).mp hs, fun pre2 s2 d2 h2 hl =>
      (matchAt_none_iff s2).mp (hleft pre2 s2 h2 hl) d2⟩
  · rintro ⟨pre, s, hps, hs, hleft⟩
    exact ⟨pre, s, hps, (matchAt_iff s digits).mpr hs, fun pre2 s2 h2 hl =>
      (matchAt_none_iff s2).mpr (fun d2 => hleft pre2 s2 d2 h2 hl)⟩

theorem quizMatch_none_iff_pattern (f : List Char) :
    quizMatch f = none ↔ ∀ pre s d, f = pre ++ s → ¬ PatternAt s d := by
  rw [quizMatch_none_iff]
  constructor
  · intro h pre s d hps
    exact (matchAt_none_iff s).mp (h pre s hps) d
  · intro h pre s hps
    exact (matchAt_none_iff s).mpr (fun d => h pre s d hps)

theorem filenameOf_append (dir name : List Char) (h : ∀ c ∈ name, c ≠ '/') :
    filenameOf (dir ++ '/' :: name) = name := by
  unfold filenameOf
  have : (dir ++ '/' :: name).reverse = name.reverse ++ '/' :: dir.reverse := by simp
  rw [this, List.takeWhile_append_of_pos (by simpa using h)]
  simp

theorem filenameOf_no_slash (path : List Char) (h : ∀ c ∈ path, c ≠ '/') :
    filenameOf path = path := by
  unfold filenameOf
  rw [List.takeWhile_eq_self_iff.mpr (by simpa using h), List.reverse_reverse]

theorem parseInt_foldl (ds : List Char) (a : Nat) :
    ds.foldl (fun acc c => 10 * acc + (c.toNat - '0'.toNat)) a
      = a * 10 ^ ds.length + parseInt ds := by
  induction ds generalizing a with
  | nil => simp [parseInt]
  | cons d ds ih =>
    simp only [List.foldl_cons, List.length_cons, parseInt]
    rw [ih, ih (10 * 0 + _)]
    ring

theorem parseInt_cons (d : Char) (ds : List Char) :
    parseInt (d :: ds) = (d.toNat - '0'.toNat) * 10 ^ ds.length + parseInt ds := by
  simp only [parseInt, List.foldl_cons]
  rw [parseInt_foldl]
  simp [parseInt]

theorem digitChar_toNat (m : Nat) (h : m < 10) : (Nat.digitChar m).toNat - '0'.toNat = m := by
  interval_cases m <;> rfl

theorem digitChar_isDigit (m : Nat) (h : m < 10) : (Nat.digitChar m).isDigit = true := by
  interval_cases m <;> rfl

theorem parseInt_toDigitsCore (fuel : Nat) : ∀ (n : Nat) (ds : List Char), n < fuel →
    parseInt (Nat.toDigitsCore 10 fuel n ds) = n * 10 ^ ds.length + parseInt ds := by
  induction fuel with
  | zero => intro n ds h; omega
  | succ fuel ih =>
    intro n ds h
    simp only [Nat.toDigitsCore]
    have hd := digitChar_toNat (n % 10) (Nat.mod_lt _ (by norm_num))
    split_ifs with h0
    · rw [parseInt_cons, hd]
      have : n % 10 = n := by omega
      rw [this]
    · rw [ih (n / 10) _ (by omega), parseInt_cons, hd, List.length_cons, pow_succ]
      have hn : n * 10 ^ ds.length = (10 * (n / 10) + n % 10) * 10 ^ ds.length := by
        rw [Nat.div_add_mod n 10]
      rw [hn]
      ring

theorem parseInt_toDigits (n : Nat) : parseInt (Nat.toDigits 10 n) = n := by
  unfold Nat.toDigits
  rw [parseInt_toDigitsCore _ _ _ (by omega)]
  simp [parseInt]

theorem isDigit_toDigitsCore (fuel : Nat) : ∀ (n : Nat) (ds : List Char),
    (∀ c ∈ ds, c.isDigit = true) → ∀ c ∈ Nat.toDigitsCore 10 fuel n ds, c.isDigit = true := by
  induction fuel with
  | zero => intro n ds h; simpa [Nat.toDigitsCore] using h
  | succ fuel ih =>
    intro n ds h
    simp only [Nat.toDigitsCore]
    have hd := digitChar_isDigit (n % 10) (Nat.mod_lt _ (by norm_num))
    have h2 : ∀ c ∈ Nat.digitChar (n % 10) :: ds, c.isDigit = true := by
      intro c hc
      rcases List.mem_cons.mp hc with rfl | hc
      · exact hd
      · exact h c hc
    split_ifs with h0
    · exact h2
    · exact ih _ _ h2

theorem isDigit_toDigits (n : Nat) : ∀ c ∈ Nat.toDigits 10 n, c.isDigit = true :=
  isDigit_toDigitsCore _ _ _ (by simp)

theorem toDigitsCore_ne_nil (fuel n : Nat) (ds : List Char) (h : ds ≠ [] ∨ 0 < fuel) :
    Nat.toDigitsCore 10 fuel n ds ≠ [] := by
  induction fuel generalizing n ds with
  | zero =>
    rcases h with h | h
    · simpa [Nat.toDigitsCore] using h
    · omega
  | succ fuel ih =>
    simp only [Nat.toDigitsCore]
    split_ifs
    · simp
    · exact ih _ _ (Or.inl (by simp))

theorem toDigits_ne_nil (n : Nat) : Nat.toDigits 10 n ≠ [] :=
  toDigitsCore_ne_nil _ _ _ (Or.inr (by omega))

theorem nextQuizUrl_of_match (pathname : String) (digits : List Char)
    (h : quizMatch (filenameOf pathname.data) = some digits) :
    nextQuizUrl pathname =
      if parseInt digits < 12 then some ("quiz" ++ toString (parseInt digits + 1) ++ ".html")
      else none := by
  unfold nextQuizUrl
  simp only [h]

theorem nextQuizUrl_of_no_match (pathname : String)
    (h : quizMatch (filenameOf pathname.data) = none) : nextQuizUrl pathname = none := by
  unfold nextQuizUrl
  simp only [h]

theorem quizMatch_quiz_page (k : Nat) :
    quizMatch ("quiz".data ++ Nat.toDigits 10 k ++ ".html".data) = some (Nat.toDigits 10 k) := by
  rw [quizMatch_some_iff]
  refine ⟨[], _, rfl, ?_, fun _ _ _ hl => absurd hl (by simp)⟩
  rw [matchAt_iff]
  exact ⟨"quiz".data, ".html".data, [], by simp, rfl, toDigits_ne_nil k, isDigit_toDigits k, rfl⟩

theorem filenameOf_quiz_page (dir : String) (k : Nat) :
    filenameOf (dir ++ "/quiz" ++ toString k ++ ".html").data
      = "quiz".data ++ Nat.toDigits 10 k ++ ".html".data := by
  have hd : (dir ++ "/quiz" ++ toString k ++ ".html").data
      = dir.data ++ '/' :: ("quiz".data ++ Nat.toDigits 10 k ++ ".html".data) := by
    simp only [String.data_append]
    have : (toString k).data = Nat.toDigits 10 k := rfl
    rw [this]
    simp
  rw [hd]
  apply filenameOf_append
  intro c hc
  simp only [List.mem_append] at hc
  rcases hc with (hc | hc) | hc
  · intro h; subst h; revert hc; decide
  · intro h; subst h; exact absurd (isDigit_toDigits k _ hc) (by decide)
  · intro h; subst h; revert hc; decide

/-- C9. When the pattern `quiz<digits>.html` (letters in either case) occurs
in the filename, with `k` the number written by the digits of its first
occurrence, `showResults` adds the `Next Quiz` button iff `k < 12`, and the
button leads to `quiz<k+1>.html`; when it does not occur, no button is added.
So on the page `quiz<k>.html` of any directory the button is there iff
`k < 12` and leads to `quiz<k+1>.html`: `quiz3.html` gives `quiz4.html`,
`quiz12.html` gives nothing. -/
theorem next_quiz_action :
    (∀ (pathname : String) (digits : List Char),
      FirstMatch (filenameOf pathname.data) digits →
        ((nextQuizUrl pathname).isSome = true ↔ parseInt digits < 12) ∧
        (parseInt digits < 12 →
          nextQuizUrl pathname = some ("quiz" ++ toString (parseInt digits + 1) ++ ".html"))) ∧
    (∀ pathname : String,
      (∀ pre s d, filenameOf pathname.data = pre ++ s → ¬ PatternAt s d) →
        nextQuizUrl pathname = none) ∧
    (∀ (dir : String) (k : Nat),
      nextQuizUrl (dir ++ "/quiz" ++ toString k ++ ".html") =
        if k < 12 then some ("quiz" ++ toString (k + 1) ++ ".html") else none) ∧
    (∀ (dir name : List Char), (∀ c ∈ name, c ≠ '/') →
      filenameOf (dir ++ '/' :: name) = name) ∧
    nextQuizUrl "/quizzes/quiz3.html" = some "quiz4.html" ∧
    nextQuizUrl "/quizzes/quiz12.html" = none ∧
    (∀ (quizData : List Question) (s : Session) (isCSS : Bool) (pathname : String),
      (showResults quizData s isCSS pathname).nextQuizUrl = nextQuizUrl pathname) := by
  refine ⟨?_, ?_, ?_, filenameOf_append, by decide, by decide, fun _ _ _ _ => rfl⟩
  · intro pathname digits h
    have hm := (quizMatch_iff_firstMatch _ _).mpr h
    rw [nextQuizUrl_of_match pathname digits hm]
    constructor
    · split_ifs with hk <;> simp [hk]
    · intro hk
      rw [if_pos hk]
  · intro pathname h
    exact nextQuizUrl_of_no_match pathname ((quizMatch_none_iff_pattern _).mpr h)
  · intro dir k
    have hm : quizMatch (filenameOf (dir ++ "/quiz" ++ toString k ++ ".html").data)
        = some (Nat.toDigits 10 k) := by
      rw [filenameOf_quiz_page]
      exact quizMatch_quiz_page k
    rw [nextQuizUrl_of_match _ _ hm, parseInt_toDigits]

/-- C9 on the page `quiz3.html`: the pattern is found with the digit 3 and
the button leads to `quiz4.html`. -/
theorem next_quiz_action_witness :
    FirstMatch (filenameOf "/quizzes/quiz3.html".data) "3".data ∧
    nextQuizUrl "/quizzes/quiz3.html" = some "quiz4.html" :=
  ⟨(quizMatch_iff_firstMatch _ _).mp (by decide),
    (next_quiz_action.1 "/quizzes/quiz3.html" "3".data
      ((quizMatch_iff_firstMatch _ _).mp (by decide))).2 (by decide)⟩

/-! ## Rounding to a double -/

theorem log2Aux_lt (fuel : Nat) : ∀ (n j : Nat), n < 2 ^ (j + 1) → log2Aux fuel n ≤ j := by
  induction fuel with
  | zero => intro n j _; simp [log2Aux]
  | succ fuel ih =>
    intro n j h
    simp only [log2Aux]
    split_ifs with h2
    · omega
    · cases j with
      | zero => simp at h; omega
      | succ j =>
        have : n / 2 < 2 ^ (j + 1) := by
          rw [Nat.div_lt_iff_lt_mul (by norm_num)]
          rw [pow_succ] at h
          exact h
        have := ih (n / 2) j this
        omega

theorem ilog2_le (n j : Nat) (h : n < 2 ^ (j + 1)) : ilog2 n ≤ j :=
  log2Aux_lt n n j h

theorem le_log2Aux (j : Nat) : ∀ (fuel n : Nat), 2 ^ j ≤ n → n ≤ fuel → j ≤ log2Aux fuel n := by
  induction j with
  | zero => intro fuel n _ _; omega
  | succ j ih =>
    intro fuel n h hf
    have hn : 2 ≤ n := by
      have : 2 ^ 1 ≤ 2 ^ (j + 1) := Nat.pow_le_pow_right (by norm_num) (by omega)
      omega
    cases fuel with
    | zero => omega
    | succ fuel =>
      simp only [log2Aux]
      rw [if_neg (by omega)]
      have h2 : 2 ^ j ≤ n / 2 := by
        rw [Nat.le_div_iff_mul_le (by norm_num)]
        rw [pow_succ] at h
        exact h
      have := ih fuel (n / 2) h2 (by omega)
      omega

theorem le_ilog2 (n j : Nat) (h : 2 ^ j ≤ n) : j ≤ ilog2 n :=
  le_log2Aux j n n h (le_refl n)

theorem roundMantissa_le (a b : Nat) (u : Int) (M : Nat) (hb : 0 < b * 2 ^ u.toNat)
    (h : a * 2 ^ (-u).toNat ≤ M * (b * 2 ^ u.toNat)) : roundMantissa a b u ≤ M := by
  unfold roundMantissa
  dsimp only
  generalize a * 2 ^ (-u).toNat = A at h
  generalize b * 2 ^ u.toNat = B at h hb
  have hdiv : A / B ≤ M := by
    rw [Nat.div_le_iff_le_mul_add_pred hb]
    nlinarith
  have hmod := Nat.div_add_mod A B
  have hlt := Nat.mod_lt A hb
  by_cases hr : A % B = 0
  · rw [if_pos (by omega)]
    exact hdiv
  · have hlt2 : A / B < M := by
      by_contra hge
      have hM : A / B = M := by omega
      rw [hM] at hmod
      have hc : B * M = M * B := Nat.mul_comm _ _
      omega
    split_ifs <;> omega

theorem reduceDyadic_spec (k : Nat) : ∀ n : Int,
    ∃ n2 k2, reduceDyadic n k = .fin n2 k2 ∧ k2 ≤ k ∧ n2 * 2 ^ k = n * 2 ^ k2 := by
  induction k with
  | zero => intro n; exact ⟨n, 0, rfl, le_refl _, rfl⟩
  | succ k ih =>
    intro n
    simp only [reduceDyadic]
    split_ifs with h
    · obtain ⟨n2, k2, h1, h2, h3⟩ := ih (n / 2)
      refine ⟨n2, k2, h1, by omega, ?_⟩
      have hn : n = 2 * (n / 2) := by omega
      rw [pow_succ, ← mul_assoc, h3]
      conv_rhs => rw [hn]
      ring
    · exact ⟨n, k + 1, rfl, le_refl _, rfl⟩

theorem binade_le (a b : Nat) : binade a b ≤ (ilog2 a : Int) - (ilog2 b : Int) := by
  unfold binade
  dsimp only
  split_ifs <;> omega

theorem roundToDouble_le (a b c t : Nat) (hb : 0 < b) (hc : c < 2 ^ 64) (ht : t ≤ 1074)
    (hexp : (ilog2 a : Int) + t ≤ (ilog2 b : Int) + 52) (h : a * 2 ^ t ≤ c * b) :
    ∃ n k, roundToDouble false a b = .fin n k ∧ 0 ≤ n ∧ n * 2 ^ t ≤ (c : Int) * 2 ^ k := by
  unfold roundToDouble
  by_cases ha : a = 0
  · rw [if_pos ha]
    exact ⟨0, 0, rfl, le_refl _, by simp⟩
  · rw [if_neg ha]
    dsimp only
    have hbin := binade_le a b
    obtain ⟨w, hw⟩ : ∃ w : Nat, max (binade a b - 52) (-1074) = -(w : Int) := by
      refine ⟨(-(max (binade a b - 52) (-1074))).toNat, ?_⟩
      have : max (binade a b - 52) (-1074) ≤ 0 := by
        apply max_le <;> omega
      omega
    have hwt : t ≤ w := by
      have : max (binade a b - 52) (-1074) ≤ -(t : Int) := by
        apply max_le <;> omega
      omega
    rw [hw]
    have hw1 : (-(-(w : Int))).toNat = w := by simp
    have hw0 : (-(w : Int)).toNat = 0 := by simp
    have hm : roundMantissa a b (-(w : Int)) ≤ c * 2 ^ (w - t) := by
      apply roundMantissa_le
      · rw [hw0]; simpa using hb
      · rw [hw1, hw0]
        have hpow : 2 ^ w = 2 ^ t * 2 ^ (w - t) := by
          rw [← pow_add]; congr 1; omega
        calc a * 2 ^ w = a * 2 ^ t * 2 ^ (w - t) := by rw [hpow]; ring
          _ ≤ c * b * 2 ^ (w - t) := Nat.mul_le_mul_right _ h
          _ = c * 2 ^ (w - t) * (b * 2 ^ 0) := by ring
    generalize roundMantissa a b (-(w : Int)) = m at hm
    have hlog : ilog2 m ≤ 63 + (w - t) := by
      apply ilog2_le
      calc m ≤ c * 2 ^ (w - t) := hm
        _ < 2 ^ 64 * 2 ^ (w - t) := Nat.mul_lt_mul_of_pos_right hc (by positivity)
        _ = 2 ^ (63 + (w - t) + 1) := by rw [← pow_add]; congr 1; omega
    clear hc
    rw [if_neg (by omega), hw1, hw0]
    simp only [Bool.false_eq_true, if_false, pow_zero, mul_one]
    obtain ⟨n2, k2, h1, h2, h3⟩ := reduceDyadic_spec w (m : Int)
    refine ⟨n2, k2, h1, ?_, ?_⟩
    · have hpos : (0 : Int) ≤ n2 * 2 ^ w := by rw [h3]; positivity
      have h2w : (0 : Int) < 2 ^ w := by positivity
      exact nonneg_of_mul_nonneg_left hpos h2w
    · have h2w : (0 : Int) < 2 ^ w := by positivity
      have hmI : (m : Int) ≤ c * 2 ^ (w - t) := by exact_mod_cast hm
      have hpow : (2 : Int) ^ w = 2 ^ t * 2 ^ (w - t) := by
        rw [← pow_add]; congr 1; omega
      have key : n2 * 2 ^ t * 2 ^ w ≤ (c : Int) * 2 ^ k2 * 2 ^ w := by
        calc n2 * 2 ^ t * 2 ^ w = (n2 * 2 ^ w) * 2 ^ t := by ring
          _ = (m : Int) * 2 ^ k2 * 2 ^ t := by rw [h3]
          _ ≤ (c * 2 ^ (w - t)) * 2 ^ k2 * 2 ^ t := by
              apply mul_le_mul_of_nonneg_right _ (by positivity)
              exact mul_le_mul_of_nonneg_right hmI (by positivity)
          _ = (c : Int) * 2 ^ k2 * 2 ^ w := by rw [hpow]; ring
      exact le_of_mul_le_mul_right key h2w

theorem div_ofNat (s n : Nat) (hn : 1 ≤ n) :
    JSNumber.div (.ofInt (s : Nat)) (.ofInt (n : Nat)) = roundToDouble false s n := by
  have hn0 : (n : Int) ≠ 0 := by omega
  have h1 : ¬ ((s : Int) < 0) := by omega
  have h2 : ¬ ((n : Int) < 0) := by omega
  simp [JSNumber.div, JSNumber.ofInt, hn0, h1, h2]

theorem mul_hundred (n : Int) (k : Nat) (hn : 0 ≤ n) :
    JSNumber.mul (.fin n k) (.ofInt 100) = roundToDouble false (n.natAbs * 100) (2 ^ k) := by
  have h1 : ¬ (n < 0) := by omega
  simp [JSNumber.mul, JSNumber.ofInt, h1]

theorem percentage_lt_100 (s n : Nat) (hn : n ≤ 199) (hs : s < n) :
    ∃ p : Int,
      Math.round (JSNumber.mul (JSNumber.div (.ofInt (s : Nat)) (.ofInt (n : Nat))) (.ofInt 100))
        = .ofInt p ∧ p ≤ 99 := by
  rw [div_ofNat s n (by omega)]
  have hlog : ilog2 s ≤ 7 := ilog2_le s 7 (by norm_num; omega)
  obtain ⟨n1, k1, e1, hn1, hb1⟩ :=
    roundToDouble_le s n 8151 13 (by omega) (by norm_num) (by norm_num) (by omega)
      (by norm_num; omega)
  rw [e1, mul_hundred n1 k1 hn1]
  have hpos : (0 : Int) < 2 ^ k1 := by positivity
  have hnat : ((n1.natAbs : Nat) : Int) = n1 := Int.natAbs_of_nonneg hn1
  have hb1n : n1.natAbs * 8192 ≤ 8151 * 2 ^ k1 := by
    have : ((n1.natAbs * 8192 : Nat) : Int) ≤ ((8151 * 2 ^ k1 : Nat) : Int) := by
      push_cast
      rw [abs_of_nonneg hn1]
      norm_num at hb1
      exact hb1
    exact_mod_cast this
  have hlog2 : ilog2 (n1.natAbs * 100) ≤ k1 + 6 := by
    apply ilog2_le
    have : 2 ^ (k1 + 6 + 1) = 128 * 2 ^ k1 := by rw [pow_add]; norm_num; ring
    rw [this]
    have hp : 0 < 2 ^ k1 := by positivity
    generalize 2 ^ k1 = X at hb1n hp
    omega
  have hlog3 : k1 ≤ ilog2 (2 ^ k1) := le_ilog2 _ _ (le_refl _)
  obtain ⟨n2, k2, e2, hn2, hb2⟩ :=
    roundToDouble_le (n1.natAbs * 100) (2 ^ k1) 203775 11 (by positivity) (by norm_num)
      (by norm_num) (by omega)
      (by
        norm_num
        generalize 2 ^ k1 = X at hb1n
        omega)
  rw [e2]
  refine ⟨(2 * n2 + 2 ^ k2) / 2 ^ (k2 + 1), rfl, ?_⟩
  have hp2 : (0 : Int) < 2 ^ k2 := by positivity
  have : (2 * n2 + 2 ^ k2) / 2 ^ (k2 + 1) < 100 := by
    apply Int.ediv_lt_of_lt_mul (by positivity)
    rw [pow_succ]
    norm_num at hb2
    generalize (2 : Int) ^ k2 = X at hb2 hp2
    omega
  omega

theorem percentage_all_correct (n : Nat) (hn : 1 ≤ n) :
    Math.round (JSNumber.mul (JSNumber.div (.ofInt (n : Nat)) (.ofInt (n : Nat))) (.ofInt 100))
      = .ofInt 100 := by
  rw [div_ofNat n n hn]
  have hq : roundToDouble false n n = .fin 1 0 := by
    unfold roundToDouble
    rw [if_neg (by omega)]
    have hbin : binade n n = 0 := by
      unfold binade
      simp
    have hu : max (binade n n - 52) (-1074) = -52 := by rw [hbin]; rfl
    have hm : roundMantissa n n (-52) = 2 ^ 52 := by
      unfold roundMantissa
      have h1 : (-(-52 : Int)).toNat = 52 := rfl
      have h2 : (-52 : Int).toNat = 0 := rfl
      simp only [h1, h2, pow_zero, mul_one]
      rw [Nat.mul_div_cancel_left _ (by omega : 0 < n), Nat.mul_mod_right]
      rw [if_pos (by omega)]
    dsimp only
    rw [hu, hm]
    decide
  rw [hq]
  decide

theorem ilog2_spec (n : Nat) (hn : 1 ≤ n) : 2 ^ ilog2 n ≤ n ∧ n < 2 ^ (ilog2 n + 1) := by
  constructor
  · by_contra hlt
    push_neg at hlt
    rcases Nat.eq_zero_or_pos (ilog2 n) with h0 | hpos
    · rw [h0] at hlt
      simp at hlt
      omega
    · have := ilog2_le n (ilog2 n - 1) (by
        rw [Nat.sub_add_cancel hpos]; exact hlt)
      omega
  · by_contra hge
    push_neg at hge
    have := le_ilog2 n (ilog2 n + 1) hge
    omega

theorem binade_ge (a b : Nat) : (ilog2 a : Int) - (ilog2 b : Int) - 1 ≤ binade a b := by
  unfold binade
  dsimp only
  split_ifs <;> omega

theorem binade_spec (a b : Nat) (ha : 1 ≤ a) (hb : 1 ≤ b) :
    b * 2 ^ (binade a b).toNat ≤ a * 2 ^ (-binade a b).toNat := by
  unfold binade
  dsimp only
  split_ifs with h
  · exact h
  · obtain ⟨ha1, -⟩ := ilog2_spec a ha
    obtain ⟨-, hb2⟩ := ilog2_spec b hb
    generalize ilog2 a = la at *
    generalize ilog2 b = lb at *
    rcases Nat.lt_or_ge lb la with hlt | hge
    · -- d - 1 ≥ 0
      have e1 : ((la : Int) - lb - 1).toNat = la - lb - 1 := by omega
      have e2 : (-((la : Int) - lb - 1)).toNat = 0 := by omega
      rw [e1, e2, pow_zero, mul_one]
      calc b * 2 ^ (la - lb - 1) ≤ 2 ^ (lb + 1) * 2 ^ (la - lb - 1) :=
            Nat.mul_le_mul_right _ (le_of_lt hb2)
        _ = 2 ^ la := by rw [← pow_add]; congr 1; omega
        _ ≤ a := ha1
    · have e1 : ((la : Int) - lb - 1).toNat = 0 := by omega
      have e2 : (-((la : Int) - lb - 1)).toNat = lb + 1 - la := by omega
      rw [e1, e2, pow_zero, mul_one]
      calc b ≤ 2 ^ (lb + 1) := le_of_lt hb2
        _ = 2 ^ la * 2 ^ (lb + 1 - la) := by rw [← pow_add]; congr 1; omega
        _ ≤ a * 2 ^ (lb + 1 - la) := Nat.mul_le_mul_right _ ha1

theorem roundMantissa_near (a b : Nat) (u : Int) (hb : 0 < b * 2 ^ u.toNat) :
    2 * (roundMantissa a b u * (b * 2 ^ u.toNat)) ≤ 2 * (a * 2 ^ (-u).toNat) + b * 2 ^ u.toNat ∧
    2 * (a * 2 ^ (-u).toNat) ≤ 2 * (roundMantissa a b u * (b * 2 ^ u.toNat)) + b * 2 ^ u.toNat := by
  unfold roundMantissa
  dsimp only
  generalize a * 2 ^ (-u).toNat = A
  generalize b * 2 ^ u.toNat = B at hb
  have hmod := Nat.div_add_mod A B
  have hlt := Nat.mod_lt A hb
  have hc : B * (A / B) = A / B * B := Nat.mul_comm _ _
  generalize A / B = n at *
  generalize A % B = r at *
  split_ifs
  · constructor <;> nlinarith
  · constructor <;> nlinarith
  · constructor <;> nlinarith
  · constructor <;> nlinarith

theorem roundToDouble_approx (a b : Nat) (ha : 1 ≤ a) (hb : 1 ≤ b) (hlb : ilog2 b ≤ 200)
    (hab : a < 2 ^ 52 * b) :
    ∃ (n : Int) (k : Nat), roundToDouble false a b = .fin n k ∧ 0 ≤ n ∧ k ≤ 53 + ilog2 b ∧
      |(n : ℚ) / 2 ^ k - (a : ℚ) / b| ≤ (a : ℚ) / b / 2 ^ 53 := by
  unfold roundToDouble
  rw [if_neg (by omega)]
  dsimp only
  have hle := binade_le a b
  have hge := binade_ge a b
  have hspec := binade_spec a b ha hb
  have he51 : binade a b ≤ 51 := by
    by_contra hgt
    push_neg at hgt
    have e1 : (-binade a b).toNat = 0 := by omega
    rw [e1, pow_zero, mul_one] at hspec
    have : 2 ^ 52 ≤ 2 ^ (binade a b).toNat := Nat.pow_le_pow_right (by norm_num) (by omega)
    have : b * 2 ^ 52 ≤ b * 2 ^ (binade a b).toNat := Nat.mul_le_mul_left _ this
    omega
  obtain ⟨w, hw⟩ : ∃ w : Nat, binade a b = 52 - (w : Int) := ⟨(52 - binade a b).toNat, by omega⟩
  have hw1 : 1 ≤ w := by omega
  have hw2 : w ≤ 53 + ilog2 b := by omega
  have hmax : max (binade a b - 52) (-1074) = -(w : Int) := by
    rw [max_eq_left (by omega)]; omega
  have hlow : b * 2 ^ 52 ≤ a * 2 ^ w := by
    rcases Nat.lt_or_ge 52 w with hlt | hge52
    · have e1 : (binade a b).toNat = 0 := by omega
      have e2 : (-binade a b).toNat = w - 52 := by omega
      rw [e1, e2, pow_zero, mul_one] at hspec
      calc b * 2 ^ 52 ≤ a * 2 ^ (w - 52) * 2 ^ 52 := Nat.mul_le_mul_right _ hspec
        _ = a * 2 ^ w := by rw [mul_assoc, ← pow_add]; congr 2; omega
    · have e1 : (binade a b).toNat = 52 - w := by omega
      have e2 : (-binade a b).toNat = 0 := by omega
      rw [e1, e2, pow_zero, mul_one] at hspec
      calc b * 2 ^ 52 = b * 2 ^ (52 - w) * 2 ^ w := by
            rw [mul_assoc, ← pow_add]; congr 2; omega
        _ ≤ a * 2 ^ w := Nat.mul_le_mul_right _ hspec
  rw [hmax]
  have hw1' : (-(-(w : Int))).toNat = w := by simp
  have hw0 : (-(w : Int)).toNat = 0 := by simp
  obtain ⟨hn1, hn2⟩ := roundMantissa_near a b (-(w : Int)) (by rw [hw0]; simpa using hb)
  rw [hw1', hw0, pow_zero, mul_one] at hn1 hn2
  generalize roundMantissa a b (-(w : Int)) = m at hn1 hn2
  have hmle : m ≤ a * 2 ^ w + 1 := by
    have h1 : m * b ≤ (a * 2 ^ w + 1) * b := by nlinarith
    exact Nat.le_of_mul_le_mul_right h1 (by omega)
  have hlog : ilog2 m ≤ 52 + ilog2 b + w := by
    apply ilog2_le
    obtain ⟨-, hb2⟩ := ilog2_spec b hb
    have h2w : 0 < 2 ^ w := by positivity
    calc m ≤ a * 2 ^ w + 1 := hmle
      _ ≤ 2 ^ 52 * b * 2 ^ w := by nlinarith
      _ < 2 ^ 52 * 2 ^ (ilog2 b + 1) * 2 ^ w := by
          apply Nat.mul_lt_mul_of_pos_right _ h2w
          exact Nat.mul_lt_mul_of_pos_left hb2 (by positivity)
      _ = 2 ^ (52 + ilog2 b + w + 1) := by rw [← pow_add, ← pow_add]; congr 1; omega
  rw [if_neg (by omega), hw1', hw0]
  simp only [Bool.false_eq_true, if_false, pow_zero, mul_one]
  obtain ⟨n2, k2, h1, h2, h3⟩ := reduceDyadic_spec w (m : Int)
  have h2w : (0 : Int) < 2 ^ w := by positivity
  refine ⟨n2, k2, h1, ?_, by omega, ?_⟩
  · have hpos : (0 : Int) ≤ n2 * 2 ^ w := by rw [h3]; positivity
    exact nonneg_of_mul_nonneg_left hpos h2w
  · have hW : (0 : ℚ) < 2 ^ w := by positivity
    have hK : (0 : ℚ) < 2 ^ k2 := by positivity
    have hB : (0 : ℚ) < b := by exact_mod_cast hb
    have h3q : (n2 : ℚ) * 2 ^ w = (m : ℚ) * 2 ^ k2 := by exact_mod_cast h3
    have hval : (n2 : ℚ) / 2 ^ k2 = (m : ℚ) / 2 ^ w := by
      rw [div_eq_div_iff (ne_of_gt hK) (ne_of_gt hW)]
      exact h3q
    have hn1q : 2 * ((m : ℚ) * b) ≤ 2 * (a * 2 ^ w) + b := by exact_mod_cast hn1
    have hn2q : 2 * ((a : ℚ) * 2 ^ w) ≤ 2 * (m * b) + b := by exact_mod_cast hn2
    have hlowq : (b : ℚ) * 2 ^ 52 ≤ a * 2 ^ w := by exact_mod_cast hlow
    rw [hval]
    have hdiff : (m : ℚ) / 2 ^ w - (a : ℚ) / b = (m * b - a * 2 ^ w) / (2 ^ w * b) := by
      field_simp
      ring
    rw [hdiff, abs_div, abs_of_pos (mul_pos hW hB), div_le_iff₀ (mul_pos hW hB)]
    have hrhs : (a : ℚ) / b / 2 ^ 53 * (2 ^ w * b) = a * 2 ^ w / 2 ^ 52 / 2 := by
      rw [show (2 : ℚ) ^ 53 = 2 ^ 52 * 2 by norm_num]
      field_simp
      ring
    have hhalf : (b : ℚ) ≤ a * 2 ^ w / 2 ^ 52 := by
      rw [le_div_iff₀ (by positivity)]
      exact hlowq
    rw [hrhs, abs_le]
    generalize (a : ℚ) * 2 ^ w / 2 ^ 52 = Z at hhalf
    generalize (a : ℚ) * 2 ^ w = Y at hn1q hn2q
    generalize (m : ℚ) * b = V at hn1q hn2q
    constructor <;> linarith

theorem exactPercentage_bounds (s n : Nat) (hn : 1 ≤ n) (htie : 200 * s % (2 * n) ≠ n) :
    2 * n * exactPercentage s n + 1 ≤ 200 * s + n ∧
      200 * s + n + 1 ≤ 2 * n * (exactPercentage s n + 1) := by
  unfold exactPercentage
  have hdm := Nat.div_add_mod (200 * s + n) (2 * n)
  have hlt := Nat.mod_lt (200 * s + n) (by omega : 0 < 2 * n)
  have hr : (200 * s + n) % (2 * n) ≠ 0 := by
    intro h0
    rw [h0, add_zero] at hdm
    apply htie
    generalize (200 * s + n) / (2 * n) = p at hdm
    cases p with
    | zero => simp at hdm; omega
    | succ p =>
      have : 200 * s = n + 2 * n * p := by
        have : 2 * n * (p + 1) = 2 * n * p + 2 * n := by ring
        omega
      rw [this, Nat.add_mul_mod_self_left]
      exact Nat.mod_eq_of_lt (by omega)
  generalize (200 * s + n) % (2 * n) = r at *
  generalize (200 * s + n) / (2 * n) = p at *
  have : 2 * n * (p + 1) = 2 * n * p + 2 * n := by ring
  omega

theorem percentage_zero (n : Nat) (hn : 1 ≤ n) :
    Math.round (JSNumber.mul (JSNumber.div (.ofInt (0 : Nat)) (.ofInt (n : Nat))) (.ofInt 100))
      = .ofInt (exactPercentage 0 n) := by
  rw [div_ofNat 0 n hn]
  have h0 : roundToDouble false 0 n = .fin 0 0 := by simp [roundToDouble]
  have h1 : exactPercentage 0 n = 0 := by
    unfold exactPercentage
    exact Nat.div_eq_of_lt (by omega)
  rw [h0, h1]
  decide

theorem percentage_exact_of_not_tie (s n : Nat) (hs1 : 1 ≤ s) (hs : s ≤ n) (hn : n < 2 ^ 32)
    (htie : 200 * s % (2 * n) ≠ n) :
    Math.round (JSNumber.mul (JSNumber.div (.ofInt (s : Nat)) (.ofInt (n : Nat))) (.ofInt 100))
      = .ofInt (exactPercentage s n) := by
  have hn1 : 1 ≤ n := by omega
  rw [div_ofNat s n hn1]
  have hlogn : ilog2 n ≤ 31 := ilog2_le n 31 (by norm_num; omega)
  obtain ⟨n1, k1, e1, hn1nn, hk1, err1⟩ :=
    roundToDouble_approx s n hs1 hn1 (by omega) (by norm_num; omega)
  have hNq : (0 : ℚ) < n := by exact_mod_cast hn1
  have hSq : (0 : ℚ) < s := by exact_mod_cast hs1
  have hr0 : (0 : ℚ) < (s : ℚ) / n := div_pos hSq hNq
  have hr1 : (s : ℚ) / n ≤ 1 := by
    rw [div_le_one hNq]; exact_mod_cast hs
  have hK1 : (0 : ℚ) < 2 ^ k1 := by positivity
  have hsmall : (s : ℚ) / n / 2 ^ 53 ≤ 1 / 2 ^ 53 :=
    div_le_div_of_nonneg_right hr1 (by positivity)
  obtain ⟨err1a, err1b⟩ := abs_le.mp err1
  have hn1pos : 0 < n1 := by
    rcases lt_or_eq_of_le hn1nn with h | h
    · exact h
    · exfalso
      rw [← h] at err1a
      simp only [Int.cast_zero, zero_div, zero_sub, neg_le_neg_iff] at err1a
      have : (s : ℚ) / n / 2 ^ 53 < (s : ℚ) / n := by
        apply div_lt_self hr0; norm_num
      linarith
  have hd2 : (n1 : ℚ) / 2 ^ k1 ≤ 2 := by
    have : (1 : ℚ) / 2 ^ 53 ≤ 1 := by norm_num
    linarith
  have hnat : ((n1.natAbs : Nat) : ℚ) = (n1 : ℚ) := by
    have h : ((n1.natAbs : Nat) : Int) = n1 := Int.natAbs_of_nonneg hn1nn
    calc ((n1.natAbs : Nat) : ℚ) = (((n1.natAbs : Nat) : Int) : ℚ) :=
          (Int.cast_natCast _).symm
      _ = (n1 : ℚ) := by rw [h]
  rw [e1, mul_hundred n1 k1 hn1nn]
  have hlogk : ilog2 (2 ^ k1) ≤ k1 :=
    ilog2_le _ _ (Nat.pow_lt_pow_right (by norm_num) (by omega))
  have hab2 : n1.natAbs * 100 < 2 ^ 52 * 2 ^ k1 := by
    have : ((n1.natAbs * 100 : Nat) : ℚ) < ((2 ^ 52 * 2 ^ k1 : Nat) : ℚ) := by
      push_cast
      rw [hnat]
      rw [div_le_iff₀ hK1] at hd2
      have : (200 : ℚ) < 2 ^ 52 := by norm_num
      nlinarith
    exact_mod_cast this
  have hpos2 : 1 ≤ n1.natAbs * 100 := by
    have : 0 < n1.natAbs := Int.natAbs_pos.mpr (ne_of_gt hn1pos)
    omega
  obtain ⟨n2, k2, e2, hn2nn, -, err2⟩ :=
    roundToDouble_approx (n1.natAbs * 100) (2 ^ k1) hpos2 (Nat.one_le_two_pow) (by omega) hab2
  rw [e2]
  have hcast : ((n1.natAbs * 100 : Nat) : ℚ) / ((2 ^ k1 : Nat) : ℚ)
      = (n1 : ℚ) / 2 ^ k1 * 100 := by
    push_cast
    rw [hnat]
    ring
  rw [hcast] at err2
  obtain ⟨err2a, err2b⟩ := abs_le.mp err2
  have hsmall2 : (n1 : ℚ) / 2 ^ k1 * 100 / 2 ^ 53 ≤ 200 / 2 ^ 53 :=
    div_le_div_of_nonneg_right (by linarith) (by positivity)
  obtain ⟨hp1, hp2⟩ := exactPercentage_bounds s n hn1 htie
  generalize exactPercentage s n = p at hp1 hp2
  have hp1q : (2 : ℚ) * n * p + 1 ≤ 200 * s + n := by exact_mod_cast hp1
  have hp2q : (200 : ℚ) * s + n + 1 ≤ 2 * n * (p + 1) := by exact_mod_cast hp2
  have hC : (p : ℚ) + 1 / (2 * n) ≤ (s : ℚ) / n * 100 + 1 / 2 := by
    rw [← sub_nonneg]
    have : (s : ℚ) / n * 100 + 1 / 2 - (p + 1 / (2 * n))
        = (200 * s + n - (2 * n * p + 1)) / (2 * n) := by
      field_simp
      ring
    rw [this]
    apply div_nonneg <;> linarith
  have hD : (s : ℚ) / n * 100 + 1 / 2 + 1 / (2 * n) ≤ p + 1 := by
    rw [← sub_nonneg]
    have : (p : ℚ) + 1 - ((s : ℚ) / n * 100 + 1 / 2 + 1 / (2 * n))
        = (2 * n * (p + 1) - (200 * s + n + 1)) / (2 * n) := by
      field_simp
      ring
    rw [this]
    apply div_nonneg <;> linarith
  have hE : (300 : ℚ) / 2 ^ 53 < 1 / (2 * n) := by
    have hn33 : (2 : ℚ) * n < 2 ^ 33 := by
      have : ((2 * n : Nat) : ℚ) < ((2 ^ 33 : Nat) : ℚ) := by
        exact_mod_cast (by omega : 2 * n < 2 ^ 33)
      push_cast at this
      exact this
    have h1 : (300 : ℚ) / 2 ^ 53 < 1 / 2 ^ 33 := by norm_num
    have h2 : (1 : ℚ) / 2 ^ 33 < 1 / (2 * (n : ℚ)) :=
      one_div_lt_one_div_of_lt (by positivity) hn33
    exact lt_trans h1 h2
  show JSNumber.fin ((2 * n2 + 2 ^ k2) / 2 ^ (k2 + 1)) 0 = JSNumber.fin (p : Int) 0
  congr 1
  have hfloor : (2 * n2 + 2 ^ k2) / 2 ^ (k2 + 1)
      = ⌊(((2 * n2 + 2 ^ k2 : Int)) : ℚ) / ((2 ^ (k2 + 1) : Nat) : ℚ)⌋ := by
    rw [Rat.floor_intCast_div_natCast]
    push_cast
    rfl
  rw [hfloor, Int.floor_eq_iff]
  have hval : (((2 * n2 + 2 ^ k2 : Int)) : ℚ) / ((2 ^ (k2 + 1) : Nat) : ℚ)
      = (n2 : ℚ) / 2 ^ k2 + 1 / 2 := by
    push_cast
    field_simp
    ring
  rw [hval]
  push_cast
  constructor <;> linarith

/-! ## C3: score and percentage -/

theorem tiesAgreeUpTo_spec (n s : Nat) (h : tiesAgreeUpTo n s = true) (t : Nat)
    (ht1 : 1 ≤ t) (ht : t ≤ s) (htie : 200 * t % (2 * n) = n) :
    Math.round (JSNumber.mul (JSNumber.div (.ofInt (t : Nat)) (.ofInt n)) (.ofInt 100))
      = .ofInt (exactPercentage t n) := by
  induction s with
  | zero => omega
  | succ s ih =>
    simp only [tiesAgreeUpTo, Bool.and_eq_true] at h
    rcases Nat.lt_or_ge t (s + 1) with hlt | hge
    · exact ih h.2 (by omega)
    · have : t = s + 1 := by omega
      subst this
      have h1 := h.1
      rw [if_pos htie] at h1
      simpa using h1

theorem tiesAgreeForLengths_spec (b : Nat) (h : tiesAgreeForLengths b = true) (n : Nat)
    (h1 : 1 ≤ n) (hn : n ≤ b) (t : Nat) (ht1 : 1 ≤ t) (ht : t ≤ n)
    (htie : 200 * t % (2 * n) = n) :
    Math.round (JSNumber.mul (JSNumber.div (.ofInt (t : Nat)) (.ofInt n)) (.ofInt 100))
      = .ofInt (exactPercentage t n) := by
  induction b with
  | zero => omega
  | succ b ih =>
    simp only [tiesAgreeForLengths, Bool.and_eq_true] at h
    rcases Nat.lt_or_ge n (b + 1) with hlt | hge
    · exact ih h.2 (by omega)
    · have : n = b + 1 := by omega
      subst this
      exact tiesAgreeUpTo_spec _ _ h.1 t ht1 ht htie

theorem tiesAgreeForLengths_39 : tiesAgreeForLengths 39 = true := by decide!

theorem percentage_exact (s n : Nat) (hn1 : 1 ≤ n) (hs : s ≤ n) (hn : n < 2 ^ 32)
    (h : 200 * s % (2 * n) ≠ n ∨ n ≤ 39) :
    Math.round (JSNumber.mul (JSNumber.div (.ofInt (s : Nat)) (.ofInt (n : Nat))) (.ofInt 100))
      = .ofInt (exactPercentage s n) := by
  rcases Nat.eq_zero_or_pos s with h0 | hpos
  · subst h0
    exact percentage_zero n hn1
  · by_cases htie : 200 * s % (2 * n) = n
    · rcases h with h | h
      · exact absurd htie h
      · exact tiesAgreeForLengths_spec 39 tiesAgreeForLengths_39 n hn1 h s hpos hs htie
    · exact percentage_exact_of_not_tie s n hpos hs hn htie

theorem score_le_length (l : List (Option Answer)) : score l ≤ l.length :=
  List.length_filter_le _ _

theorem exactPercentage_eq_floor (s n : Nat) (hn : 1 ≤ n) :
    ((exactPercentage s n : Nat) : Int) = ⌊(s : ℚ) / n * 100 + 1 / 2⌋ := by
  have hn0 : (n : ℚ) ≠ 0 := by
    have : (0 : ℚ) < n := by exact_mod_cast hn
    exact ne_of_gt this
  have : (s : ℚ) / n * 100 + 1 / 2 = ((200 * s + n : Nat) : ℚ) / ((2 * n : Nat) : ℚ) := by
    push_cast
    field_simp
    ring
  rw [this, Rat.floor_natCast_div_natCast]
  rfl

theorem countsAsCorrect_iff (a : Option Answer) :
    countsAsCorrect a = true ↔ ∃ r, a = some r ∧ r.isCorrect = some true := by
  cases a with
  | none => simp [countsAsCorrect]
  | some r => simp [countsAsCorrect]

theorem score_eq_countP (l : List (Option Answer)) : score l = l.countP countsAsCorrect := by
  unfold score
  rw [List.countP_eq_length_filter]

theorem not_tie_of_rat (s n : Nat) (hn : 1 ≤ n)
    (h : ∀ j : Int, (s : ℚ) / n * 100 ≠ j + 1 / 2) : 200 * s % (2 * n) ≠ n := by
  intro hmod
  have hdm := Nat.div_add_mod (200 * s) (2 * n)
  rw [hmod] at hdm
  apply h ((200 * s / (2 * n) : Nat) : Int)
  have hq : (2 : ℚ) * n * ((200 * s / (2 * n) : Nat) : ℚ) + n = 200 * s := by
    exact_mod_cast hdm
  have hn0 : (n : ℚ) ≠ 0 := by
    have : (0 : ℚ) < n := by exact_mod_cast hn
    exact ne_of_gt this
  rw [Int.cast_natCast]
  field_simp
  linarith

/-- C3, as the code has it. The score shown by `showResults` is the number
of entries of `userAnswers` that are set and have `isCorrect` true. The
percentage is `Math.round` of the double `(score / N) * 100`. For
`1 ≤ N < 2 ^ 32` it is `score / N * 100` rounded to the nearest integer, a tie
going up, in exact arithmetic, whenever `score / N * 100` is not half-way
between two integers, and in every case when `N ≤ 39`. -/
theorem score_and_percentage (quizData : List Question) (s : Session) (isCSS : Bool)
    (pathname : String) (hlen : s.userAnswers.length = quizData.length)
    (h1 : 1 ≤ quizData.length) (h32 : quizData.length < 2 ^ 32) :
    (∀ a, countsAsCorrect a = true ↔ ∃ r, a = some r ∧ r.isCorrect = some true) ∧
    (showResults quizData s isCSS pathname).score = s.userAnswers.countP countsAsCorrect ∧
    (showResults quizData s isCSS pathname).percentage =
      Math.round
        (JSNumber.mul
          (JSNumber.div (.ofInt (showResults quizData s isCSS pathname).score)
            (.ofInt quizData.length))
          (.ofInt 100)) ∧
    (((∀ j : Int,
          ((showResults quizData s isCSS pathname).score : ℚ) / quizData.length * 100
            ≠ j + 1 / 2) ∨
        quizData.length ≤ 39) →
      (showResults quizData s isCSS pathname).percentage =
        .ofInt ⌊((showResults quizData s isCSS pathname).score : ℚ) / quizData.length * 100
          + 1 / 2⌋) := by
  refine ⟨countsAsCorrect_iff, score_eq_countP s.userAnswers, rfl, ?_⟩
  have hs : score s.userAnswers ≤ quizData.length := hlen ▸ score_le_length s.userAnswers
  intro h
  show percentage s.userAnswers quizData = _
  rw [show (showResults quizData s isCSS pathname).score = score s.userAnswers from rfl,
    ← exactPercentage_eq_floor _ _ h1]
  refine percentage_exact _ _ h1 hs h32 ?_
  rcases h with h | h
  · exact Or.inl (not_tie_of_rat _ _ h1 h)
  · exact Or.inr h

/-- C3 on four questions answered right, right, wrong, right: the score is 3
and the percentage 75. -/
theorem score_and_percentage_witness :
    ((sessionWith [rightAnswer, rightAnswer, wrongAnswer, rightAnswer]).userAnswers.length
        = (quizOfLength 4).length ∧
      1 ≤ (quizOfLength 4).length ∧ (quizOfLength 4).length < 2 ^ 32 ∧
      (quizOfLength 4).length ≤ 39) ∧
    (showResults (quizOfLength 4)
        (sessionWith [rightAnswer, rightAnswer, wrongAnswer, rightAnswer]) false
        "/quiz3.html").percentage =
      .ofInt ⌊((showResults (quizOfLength 4)
          (sessionWith [rightAnswer, rightAnswer, wrongAnswer, rightAnswer]) false
          "/quiz3.html").score : ℚ) / (quizOfLength 4).length * 100 + 1 / 2⌋ ∧
    (showResults (quizOfLength 4)
        (sessionWith [rightAnswer, rightAnswer, wrongAnswer, rightAnswer]) false
        "/quiz3.html").score = 3 ∧
    (showResults (quizOfLength 4)
        (sessionWith [rightAnswer, rightAnswer, wrongAnswer, rightAnswer]) false
        "/quiz3.html").percentage = .ofInt 75 :=
  ⟨⟨by decide, by decide, by decide, by decide⟩,
    (score_and_percentage (quizOfLength 4)
      (sessionWith [rightAnswer, rightAnswer, wrongAnswer, rightAnswer]) false "/quiz3.html"
      (by decide) (by decide) (by decide)).2.2.2 (Or.inr (by decide)),
    by decide, by decide⟩

/-- C3, as stated, fails: with 40 questions and 23 correct answers the
double `(23 / 40) * 100` is `57.49999999999999` and the percentage is 57, while
`23 / 40 * 100 = 57.5` rounds to 58. -/
theorem percentage_exact_counterexample :
    (showResults (quizOfLength 40)
        (sessionWith (List.replicate 23 rightAnswer ++ List.replicate 17 wrongAnswer)) false
        "/quiz3.html").score = 23 ∧
    JSNumber.mul (JSNumber.div (.ofInt 23) (.ofInt 40)) (.ofInt 100)
      = .fin 8092405580431359 47 ∧
    (showResults (quizOfLength 40)
        (sessionWith (List.replicate 23 rightAnswer ++ List.replicate 17 wrongAnswer)) false
        "/quiz3.html").percentage = .ofInt 57 ∧
    ⌊((23 : Nat) : ℚ) / (40 : Nat) * 100 + 1 / 2⌋ = 58 ∧
    (showResults (quizOfLength 40)
        (sessionWith (List.replicate 23 rightAnswer ++ List.replicate 17 wrongAnswer)) false
        "/quiz3.html").percentage ≠
      .ofInt ⌊((showResults (quizOfLength 40)
          (sessionWith (List.replicate 23 rightAnswer ++ List.replicate 17 wrongAnswer)) false
          "/quiz3.html").score : ℚ) / (quizOfLength 40).length * 100 + 1 / 2⌋ := by
  have hfloor : ⌊((23 : Nat) : ℚ) / (40 : Nat) * 100 + 1 / 2⌋ = 58 := by
    rw [← exactPercentage_eq_floor 23 40 (by norm_num)]
    decide
  have hscore : (showResults (quizOfLength 40)
      (sessionWith (List.replicate 23 rightAnswer ++ List.replicate 17 wrongAnswer)) false
      "/quiz3.html").score = 23 := by decide
  have hpct : (showResults (quizOfLength 40)
      (sessionWith (List.replicate 23 rightAnswer ++ List.replicate 17 wrongAnswer)) false
      "/quiz3.html").percentage = .ofInt 57 := by decide
  refine ⟨hscore, by decide, hpct, hfloor, ?_⟩
  have hlen : (quizOfLength 40).length = 40 := by decide
  rw [hpct, hscore, hlen, hfloor]
  decide

/-! ## C10: the top tier -/

theorem score_eq_length_iff (l : List (Option Answer)) :
    score l = l.length ↔ ∀ a ∈ l, countsAsCorrect a = true := by
  unfold score
  induction l with
  | nil => simp
  | cons a l ih =>
    by_cases ha : countsAsCorrect a = true
    · simp [List.filter_cons, ha, ih]
    · have hle := List.length_filter_le countsAsCorrect l
      simp only [List.filter_cons, ha, Bool.false_eq_true, if_false, List.length_cons,
        List.mem_cons, forall_eq_or_imp, false_and, iff_false]
      omega

theorem percentage_eq_100_iff (quizData : List Question) (userAnswers : List (Option Answer))
    (hlen : userAnswers.length = quizData.length) (h1 : 1 ≤ quizData.length)
    (h199 : quizData.length ≤ 199) :
    ∃ p : Int, percentage userAnswers quizData = .ofInt p ∧
      (p = 100 ↔ score userAnswers = quizData.length) := by
  have hs : score userAnswers ≤ quizData.length := hlen ▸ score_le_length userAnswers
  rcases Nat.lt_or_ge (score userAnswers) quizData.length with hlt | hge
  · obtain ⟨p, hp, hp99⟩ := percentage_lt_100 _ _ h199 hlt
    exact ⟨p, hp, by omega⟩
  · have he : score userAnswers = quizData.length := by omega
    refine ⟨100, ?_, by simp [he]⟩
    unfold percentage
    rw [he]
    exact percentage_all_correct _ h1

/-- C10, as the code has it. For every `N ≥ 1` a score of `N` gives the
percentage 100. For `1 ≤ N ≤ 199` the percentage is 100, and the
`Flawless Victory` message is shown, iff the score is `N`, that is iff every
entry of `userAnswers` is set and correct. -/
theorem flawless_iff_all_correct (quizData : List Question) (s : Session) (isCSS : Bool)
    (pathname : String) (hlen : s.userAnswers.length = quizData.length)
    (h1 : 1 ≤ quizData.length) :
    ((showResults quizData s isCSS pathname).score = quizData.length →
      (showResults quizData s isCSS pathname).percentage = .ofInt 100) ∧
    (quizData.length ≤ 199 →
      ((showResults quizData s isCSS pathname).percentage = .ofInt 100 ↔
        (showResults quizData s isCSS pathname).score = quizData.length) ∧
      ((showResults quizData s isCSS pathname).feedback =
          (if isCSS then "Flawless Victory! You\x27re a CSS expert!"
            else "Flawless Victory! You\x27re an HTML expert!") ↔
        (showResults quizData s isCSS pathname).score = quizData.length) ∧
      ((showResults quizData s isCSS pathname).score = quizData.length ↔
        ∀ a ∈ s.userAnswers, ∃ r, a = some r ∧ r.isCorrect = some true)) := by
  show (score s.userAnswers = quizData.length → percentage s.userAnswers quizData = _) ∧
    (quizData.length ≤ 199 →
      (percentage s.userAnswers quizData = _ ↔ score s.userAnswers = quizData.length) ∧
      (feedback isCSS (percentage s.userAnswers quizData) = _ ↔
        score s.userAnswers = quizData.length) ∧
      (score s.userAnswers = quizData.length ↔ _))
  constructor
  · intro he
    unfold percentage
    rw [he]
    exact percentage_all_correct _ h1
  · intro h199
    obtain ⟨p, hp, hiff⟩ := percentage_eq_100_iff quizData s.userAnswers hlen h1 h199
    refine ⟨?_, ?_, ?_⟩
    · rw [hp, ← hiff]
      simp [JSNumber.ofInt]
    · rw [hp, feedback_flawless_iff isCSS p, hiff]
    · rw [← hlen, score_eq_length_iff]
      constructor
      · intro h a ha
        exact (countsAsCorrect_iff a).mp (h a ha)
      · intro h a ha
        exact (countsAsCorrect_iff a).mpr (h a ha)

/-- C10 on four questions, all answered right: the percentage is 100. -/
theorem flawless_iff_all_correct_witness :
    ((sessionWith (List.replicate 4 rightAnswer)).userAnswers.length = (quizOfLength 4).length ∧
      1 ≤ (quizOfLength 4).length) ∧
    (showResults (quizOfLength 4) (sessionWith (List.replicate 4 rightAnswer)) true
        "/quiz3.html").percentage = .ofInt 100 :=
  ⟨⟨by decide, by decide⟩,
    (flawless_iff_all_correct (quizOfLength 4) (sessionWith (List.replicate 4 rightAnswer)) true
      "/quiz3.html" (by decide) (by decide)).1 (by decide)⟩

/-- C10, as stated, fails: with 200 questions, 199 answered correctly and one
answered wrongly, `(199 / 200) * 100` is `99.5`, the percentage is 100 and the
`Flawless Victory` message is shown. -/
theorem flawless_counterexample :
    (showResults (quizOfLength 200) (sessionWith (List.replicate 199 rightAnswer ++ [wrongAnswer]))
        false "/quiz3.html").score = 199 ∧
    JSNumber.mul (JSNumber.div (.ofInt 199) (.ofInt 200)) (.ofInt 100) = .fin 199 1 ∧
    (showResults (quizOfLength 200) (sessionWith (List.replicate 199 rightAnswer ++ [wrongAnswer]))
        false "/quiz3.html").percentage = .ofInt 100 ∧
    (showResults (quizOfLength 200) (sessionWith (List.replicate 199 rightAnswer ++ [wrongAnswer]))
        false "/quiz3.html").feedback = "Flawless Victory! You\x27re an HTML expert!" ∧
    ¬ ((showResults (quizOfLength 200)
          (sessionWith (List.replicate 199 rightAnswer ++ [wrongAnswer])) false
          "/quiz3.html").percentage = .ofInt 100 ↔
        (showResults (quizOfLength 200)
          (sessionWith (List.replicate 199 rightAnswer ++ [wrongAnswer])) false
          "/quiz3.html").score = (quizOfLength 200).length) := by
  have hscore : (showResults (quizOfLength 200)
      (sessionWith (List.replicate 199 rightAnswer ++ [wrongAnswer])) false
      "/quiz3.html").score = 199 := by decide!
  have hpct : (showResults (quizOfLength 200)
      (sessionWith (List.replicate 199 rightAnswer ++ [wrongAnswer])) false
      "/quiz3.html").percentage = .ofInt 100 := by decide!
  refine ⟨hscore, by decide, hpct, by decide!, fun h => ?_⟩
  have := h.mp hpct
  rw [hscore] at this
  exact absurd this (by decide!)

end WebQuiz
